import Mathlib

/-!
# String-containment validator of helm-unittest

A shallow embedding of `pkg/unittest/validators/string_contains_validator.go`
and of `pkg/unittest/results/assertion_result.go`, followed by theorems about
the embedded functions.

* Go values of type `interface{}` are embedded as the closed variant `Value`:
  the shapes that the YAML and JSON decoders produce. A nil map or slice is not
  told apart from an empty one.
* Go maps `map[string]interface{}` are embedded as association lists; the
  functions below accept any list, and a list stands for a Go map when its
  keys are pairwise distinct. A Go loop over a map visits the entries in an
  unspecified order; the loops embedded here return the same result in every
  order.
* Go strings are embedded as Lean strings, that is as sequences of Unicode
  characters, which is what the valid UTF-8 texts of a decoded document are.
* Go `int` indices are `Nat` where they count the rounds of a loop and `Int`
  where `-1` is passed for an absent index.
* Methods return the pair of their two results. Calls to the logger have no
  effect on the results and are left out.
* The path resolver, the YAML encoder and the two decoders belong to other
  packages; they are the fields of `Env`, and every theorem holds for every
  `Env`. The helpers of the validators package that lie outside the file
  (`determineSuccess`, `splitInfof`, `setFailFormat`, `errorFormat`,
  `ValidateContext`) are modelled from the spec, and said so at their
  definitions.
* The printer that the assertion result writes to belongs to another package:
  a call of `Println` is recorded with its content and its indent level, and
  the styling `Danger` is a field of `Printer`.
-/

namespace HelmUnittest

/-! ## Values -/

/-- A `float64`: not-a-number, an infinity, or a finite value. -/
inductive GoFloat where
  | nan
  | inf (negative : Bool)
  | fin (q : ℚ)
  deriving DecidableEq

/-- Go `==` on `float64`: a NaN differs from every float, itself included. -/
def GoFloat.eq : GoFloat → GoFloat → Bool
  | .nan, _ => false
  | _, .nan => false
  | .inf a, .inf b => a == b
  | .fin p, .fin q => decide (p = q)
  | _, _ => false

/-- A decoded value held in an `interface{}`: the shapes that the YAML and
JSON decoders produce. `map` is `map[string]interface{}`, `seq` is
`[]interface{}`. -/
inductive Value where
  | null
  | bool (b : Bool)
  | int (i : Int)
  | float (f : GoFloat)
  | str (s : String)
  | seq (xs : List Value)
  | map (kvs : List (String × Value))

/-- A `map[string]interface{}`. -/
abbrev GoMap := List (String × Value)

/-- A `common.K8sManifest`, which is a `map[string]interface{}`. -/
abbrev K8sManifest := GoMap

mutual
/-- Function `reflect.DeepEqual` on two decoded values: equal dynamic type and
equal contents; sequences elementwise, maps by equal length and deep-equal values
under every key of the first. -/
def deepEqual : Value → Value → Bool
  | .null, .null => true
  | .bool a, .bool b => a == b
  | .int a, .int b => a == b
  | .float a, .float b => GoFloat.eq a b
  | .str a, .str b => a == b
  | .seq xs, .seq ys => deepEqualSeq xs ys
  | .map m1, .map m2 => m1.length == m2.length && deepEqualEntries m1 m2
  | _, _ => false
/-- Elementwise `deepEqual` of two slices of equal length. -/
def deepEqualSeq : List Value → List Value → Bool
  | [], [] => true
  | x :: xs, y :: ys => deepEqual x y && deepEqualSeq xs ys
  | _, _ => false
/-- Every entry of the first map has a deep-equal value under its key in the
second map. -/
def deepEqualEntries : List (String × Value) → List (String × Value) → Bool
  | [], _ => true
  | (k, v1) :: rest, m2 =>
    (match m2.lookup k with
      | some v2 => deepEqual v1 v2
      | none => false) && deepEqualEntries rest m2
end

mutual
/-- Function `containsMap(bigMap, smallMap)`: the loop over the entries of
`smallMap`. The Go loop returns `false` at the first entry that fails and `true` after
the last one, so its result does not depend on the iteration order. -/
def containsMap (bigMap : GoMap) : List (String × Value) → Bool
  | [] => true
  | (k, smallVal) :: rest =>
    (match bigMap.lookup k with
      | none => false
      | some bigVal => containsEntry bigVal smallVal) && containsMap bigMap rest
/-- The body of the loop of `containsMap` once `bigVal, exists := bigMap[k]`
has found the key. -/
def containsEntry (bigVal : Value) : Value → Bool
  | .map smallValMap =>
    (match bigVal with
      | .map bigValMap => containsMap bigValMap smallValMap
      | _ => false)
  | smallVal => deepEqual bigVal smallVal
end

/-! ## Text helpers -/

/-- The class `\s` of Go regular expressions: tab, line feed, form feed,
carriage return and space. -/
def isSpace (c : Char) : Bool :=
  c == '\t' || c == '\n' || c == '\x0c' || c == '\r' || c == ' '

/-- Call `regexp.MustCompile("\\s+").ReplaceAllString(s, " ")` on the characters
of `s`: every maximal run of `\s` characters is replaced by one space.
`inRun` tells that the preceding character belongs to a run whose space has
been emitted already. -/
def collapseSpace : Bool → List Char → List Char
  | _, [] => []
  | inRun, c :: cs =>
    if isSpace c then
      (if inRun then collapseSpace true cs else ' ' :: collapseSpace true cs)
    else c :: collapseSpace false cs

/-- Function `normalizeWhitespace(s)`: whitespace folding of a text. -/
def normalizeWhitespace (s : String) : String :=
  String.mk (collapseSpace false s.data)

/-- Function `strings.Contains(s, substr)`: `substr` occurs in `s` as a contiguous
block. -/
def stringsContains (s substr : String) : Bool :=
  decide (substr.data <:+: s.data)

/-! ## Collaborators

Functions that the validator calls and that live outside the validators
package: the path resolver, the canonical YAML encoder and the two decoders.
They are parameters of the embedding. A decoder returns the decoded mapping
or the text of its error. -/

/-- The collaborators of the validator. -/
structure Env where
  /-- Resolver `valueutils.GetValueOfSetPath(manifest, path)`. -/
  GetValueOfSetPath : K8sManifest → String → Except String (List Value)
  /-- Encoder `common.TrustedMarshalYAML(value)`. -/
  TrustedMarshalYAML : Value → String
  /-- Decoder `json.Unmarshal([]byte(text), &m)` with `m` a
  `map[string]interface{}`. -/
  jsonUnmarshal : String → Except String GoMap
  /-- Decoder `yaml.Unmarshal([]byte(text), &m)` with `m` a
  `map[string]interface{}`. -/
  yamlUnmarshal : String → Except String GoMap

/-! ## Shared helpers of the validators package -/

/-- Modelled from the spec: `ValidateContext` of the validators package, as
the data model describes it: the documents to check, the negation flag and the
fail-fast flag. -/
structure ValidateContext where
  Docs : List K8sManifest
  Negative : Bool
  FailFast : Bool

/-- Modelled from the spec: `getManifests` of the validators package, the
documents that the context carries. -/
def ValidateContext.getManifests (context : ValidateContext) : List K8sManifest :=
  context.Docs

/-- Modelled from the spec: `determineSuccess` of the validators package
(section 4.5): at index 0 the running verdict is the current verdict, at a
later index it is the conjunction of the previous running verdict and the
current verdict. -/
def determineSuccess (idx : Nat) (oldState newState : Bool) : Bool :=
  if idx = 0 then newState else oldState && newState

/-- Modelled from the spec: one line of a diagnostic format of the validators
package (section 6): a fixed label, followed by a `%s` verb when `verb` is
set. -/
structure FormatLine where
  text : String
  verb : Bool
  deriving DecidableEq

/-- Modelled from the spec: `errorFormat` of the validators package (section
6): the line `Error:` followed by the indented error message. -/
def errorFormat : List FormatLine :=
  [⟨"Error:", false⟩, ⟨"", true⟩]

/-- Modelled from the spec: `setFailFormat(not, path, actual, diff,
customize)` of the validators package (section 6): an optional `Path:` line
carrying the path, the header `Expected[ NOT]<customize>:` followed by the
expected text, then optional `Actual:` and `Diff:` blocks. -/
def setFailFormat (not path actual diff : Bool) (customize : String) : List FormatLine :=
  (if path then [⟨"Path:", true⟩] else []) ++
  [⟨"Expected" ++ (if not then " NOT" else "") ++ customize ++ ":", false⟩, ⟨"", true⟩] ++
  (if actual then [⟨"Actual:", false⟩, ⟨"", true⟩] else []) ++
  (if diff then [⟨"Diff:", false⟩, ⟨"", true⟩] else [])

/-- The characters that are dropped around a replacement: line feed, tab and
space. -/
def isCutset (c : Char) : Bool :=
  c == '\n' || c == '\t' || c == ' '

/-- Drop the cutset characters at both ends of a text. -/
def trimCutset (cs : List Char) : List Char :=
  ((cs.dropWhile isCutset).reverse.dropWhile isCutset).reverse

/-- The lines of a text: the pieces between its line feeds. -/
def splitLines : List Char → List (List Char)
  | [] => [[]]
  | c :: cs =>
    if c = '\n' then [] :: splitLines cs
    else
      match splitLines cs with
      | [] => [[c]]
      | l :: ls => (c :: l) :: ls

/-- Modelled from the spec: the layout of one replacement text in a
diagnostic (section 6): one tab-indented output line per line of the text,
after the line feeds, tabs and spaces around the text are dropped (the
trailing line feed of an encoded YAML text adds no line). -/
def indentReplacement (r : String) : List String :=
  (splitLines (trimCutset r.data)).map (fun l => String.mk ('\t' :: l))

/-- Continue a label with the first line of an indented replacement; the
further lines follow on lines of their own. -/
def continueLabel (label : String) : List String → List String
  | [] => [label]
  | l :: ls => (label ++ l) :: ls

/-- Fill the verbs of a format with the replacements, in order: the first
line of a replacement continues the label of its format line, the further
lines follow. A verb without replacement prints as Go does. -/
def fillFormat : List FormatLine → List String → List String
  | [], _ => []
  | ⟨t, false⟩ :: fs, rs => t :: fillFormat fs rs
  | ⟨t, true⟩ :: fs, [] => (t ++ "%!s(MISSING)") :: fillFormat fs []
  | ⟨t, true⟩ :: fs, r :: rs => continueLabel t (indentReplacement r) ++ fillFormat fs rs

/-- Modelled from the spec: `splitInfof(format, manifestIndex, valuesIndex,
replacements...)` of the validators package (section 6): the line
`DocumentIndex:\t<n>` when the document index is not negative, the line
`ValuesIndex:\t<n>` when the value index is not negative, then the lines of
the format with its verbs filled by the indented replacements. -/
def splitInfof (format : List FormatLine) (manifestIndex valuesIndex : Int)
    (replacements : List String) : List String :=
  (if 0 ≤ manifestIndex then ["DocumentIndex:\t" ++ toString manifestIndex] else []) ++
  (if 0 ≤ valuesIndex then ["ValuesIndex:\t" ++ toString valuesIndex] else []) ++
  fillFormat format replacements

/-! ## The validator -/

/-- The configuration `StringContainsValidator`. -/
structure StringContainsValidator where
  Path : String
  Content : Value
  IgnoreFormatting : Bool
  FromJson : Bool
  FromYaml : Bool

/-- Method `failInfo(actual, manifestIndex, assertIndex, not)`: the
expected/actual block of a content mismatch. The logging calls have no effect
on the result and are left out. -/
def failInfo (env : Env) (v : StringContainsValidator) (actual : Value)
    (manifestIndex assertIndex : Int) (not : Bool) : List String :=
  let expectedStr :=
    match v.Content with
    | .str str => str
    | content => env.TrustedMarshalYAML content
  let actualStr :=
    match actual with
    | .str str => str
    | other => env.TrustedMarshalYAML other
  let containsFailFormat := setFailFormat not true true false " to contain"
  splitInfof containsFailFormat manifestIndex assertIndex [v.Path, expectedStr, actualStr]

/-- The block `Convert content to a map`, which `validateJSON` and
`validateYAML` both contain verbatim: a mapping is taken as it is, a string is
decoded as YAML, any other content is encoded to YAML and decoded again; a
decoding error yields the error block that the method returns. -/
def contentToMap (env : Env) (v : StringContainsValidator)
    (manifestIndex assertIndex : Int) : Except (List String) GoMap :=
  match v.Content with
  | .map content => .ok content
  | .str content =>
    (match env.yamlUnmarshal content with
      | .error err =>
        .error (splitInfof errorFormat manifestIndex assertIndex
          ["failed to parse Content as YAML: " ++ err])
      | .ok contentMap => .ok contentMap)
  | _ =>
    (match env.yamlUnmarshal (env.TrustedMarshalYAML v.Content) with
      | .error err =>
        .error (splitInfof errorFormat manifestIndex assertIndex
          ["failed to convert Content to map: " ++ err])
      | .ok contentMap => .ok contentMap)

/-- Method `validateJSON(jsonStr, manifestIndex, assertIndex, context)`. -/
def validateJSON (env : Env) (v : StringContainsValidator) (jsonStr : String)
    (manifestIndex assertIndex : Int) (context : ValidateContext) : Bool × List String :=
  match env.jsonUnmarshal jsonStr with
  | .error err =>
    (false, splitInfof errorFormat manifestIndex assertIndex
      ["failed to parse JSON from '" ++ v.Path ++ "': " ++ err])
  | .ok jsonObj =>
    match contentToMap env v manifestIndex assertIndex with
    | .error validateErrors => (false, validateErrors)
    | .ok contentMap =>
      let found := containsMap jsonObj contentMap
      if found == context.Negative then
        (false, failInfo env v (.str jsonStr) manifestIndex assertIndex context.Negative)
      else (true, [])

/-- Method `validateYAML(yamlStr, manifestIndex, assertIndex, context)`. -/
def validateYAML (env : Env) (v : StringContainsValidator) (yamlStr : String)
    (manifestIndex assertIndex : Int) (context : ValidateContext) : Bool × List String :=
  match env.yamlUnmarshal yamlStr with
  | .error err =>
    (false, splitInfof errorFormat manifestIndex assertIndex
      ["failed to parse YAML from '" ++ v.Path ++ "': " ++ err])
  | .ok yamlObj =>
    match contentToMap env v manifestIndex assertIndex with
    | .error validateErrors => (false, validateErrors)
    | .ok contentMap =>
      let found := containsMap yamlObj contentMap
      if found == context.Negative then
        (false, failInfo env v (.str yamlStr) manifestIndex assertIndex context.Negative)
      else (true, [])

/-- Method `validateSingle(singleActual, manifestIndex, assertIndex,
context)`: the verdict and the diagnostics of one resolved value. -/
def validateSingle (env : Env) (v : StringContainsValidator) (singleActual : String)
    (manifestIndex assertIndex : Int) (context : ValidateContext) : Bool × List String :=
  if v.FromJson then validateJSON env v singleActual manifestIndex assertIndex context
  else if v.FromYaml then validateYAML env v singleActual manifestIndex assertIndex context
  else
    let contentStr :=
      match v.Content with
      | .str str => str
      | content => env.TrustedMarshalYAML content
    let found :=
      if v.IgnoreFormatting then
        stringsContains (normalizeWhitespace singleActual) (normalizeWhitespace contentStr)
      else stringsContains singleActual contentStr
    if found == context.Negative then
      (false, failInfo env v (.str singleActual) manifestIndex assertIndex context.Negative)
    else (true, [])

/-- The text that `validateManifest` hands to `validateSingle` for a resolved
value: the value itself when it is a string, its YAML encoding otherwise. -/
def actualText (env : Env) (singleActual : Value) : String :=
  match singleActual with
  | .str actualValue => actualValue
  | other => env.TrustedMarshalYAML other

/-- The loop of `validateManifest` over the resolved values, from the value
at index `valuesIndex` on, with the running verdict and the diagnostics
collected so far. -/
def validateValues (env : Env) (v : StringContainsValidator) (manifestIndex : Nat)
    (context : ValidateContext) :
    Nat → List Value → Bool → List String → Bool × List String
  | _, [], manifestSuccess, manifestValidateErrors =>
    (manifestSuccess, manifestValidateErrors)
  | valuesIndex, singleActual :: rest, manifestSuccess, manifestValidateErrors =>
    let single :=
      validateSingle env v (actualText env singleActual) manifestIndex valuesIndex context
    let errors := manifestValidateErrors ++ single.2
    let success := determineSuccess valuesIndex manifestSuccess single.1
    if !success && context.FailFast then (success, errors)
    else validateValues env v manifestIndex context (valuesIndex + 1) rest success errors

/-- Method `validateManifest(manifest, manifestIndex, context)`. -/
def validateManifest (env : Env) (v : StringContainsValidator) (manifest : K8sManifest)
    (manifestIndex : Nat) (context : ValidateContext) : Bool × List String :=
  match env.GetValueOfSetPath manifest v.Path with
  | .error err => (false, splitInfof errorFormat manifestIndex (-1) [err])
  | .ok actual =>
    if actual.length = 0 && !context.Negative then
      (false, splitInfof errorFormat manifestIndex (-1) ["unknown path " ++ v.Path])
    else
      let manifestSuccess := actual.length = 0 && context.Negative
      validateValues env v manifestIndex context 0 actual manifestSuccess []

/-- The loop of `Validate` over the documents, from the document at index
`manifestIndex` on, with the running verdict and the diagnostics collected so
far. -/
def validateDocs (env : Env) (v : StringContainsValidator) (context : ValidateContext) :
    Nat → List K8sManifest → Bool → List String → Bool × List String
  | _, [], validateSuccess, validateErrors => (validateSuccess, validateErrors)
  | manifestIndex, manifest :: rest, validateSuccess, validateErrors =>
    let doc := validateManifest env v manifest manifestIndex context
    let errors := validateErrors ++ doc.2
    let success := determineSuccess manifestIndex validateSuccess doc.1
    if !success && context.FailFast then (success, errors)
    else validateDocs env v context (manifestIndex + 1) rest success errors

/-- Method `Validate(context)`: the verdict of the assertion and its
diagnostics. -/
def Validate (env : Env) (v : StringContainsValidator) (context : ValidateContext) :
    Bool × List String :=
  let manifests := context.getManifests
  let looped := validateDocs env v context 0 manifests false []
  if manifests.length = 0 && !context.Negative then
    (looped.1, looped.2 ++ failInfo env v (.str "no manifest found") 0 (-1) context.Negative)
  else if manifests.length = 0 && context.Negative then
    (true, looped.2)
  else looped

/-! ## A concrete environment

The document of the test-suite and collaborators that behave on it as the
test-suite records. -/

/-- The keys of a dotted path: the pieces between its dots. -/
def pathKeys : List Char → List (List Char)
  | [] => [[]]
  | c :: cs =>
    if c = '.' then [] :: pathKeys cs
    else
      match pathKeys cs with
      | [] => [[c]]
      | k :: ks => (c :: k) :: ks

/-- Follow the keys of a dotted path into a value: an absent key yields no
value, an empty key and a step into a value that is not a mapping are
errors. -/
def followKeys : List (List Char) → Value → Except String (List Value)
  | [], value => .ok [value]
  | k :: ks, .map kvs =>
    if k = [] then .error "invalid path: empty key"
    else
      match kvs.lookup (String.mk k) with
      | none => .ok []
      | some inner => followKeys ks inner
  | _ :: _, _ => .error "invalid path: not a mapping"

/-- Modelled from the spec: a path resolver for dotted key traversal (section
4.1): the empty path selects the document, a path through an absent key selects
nothing, a malformed path or a step into a scalar is an error. -/
def dottedPath (manifest : K8sManifest) (path : String) : Except String (List Value) :=
  if path = "" then .ok [.map manifest] else followKeys (pathKeys path.data) (.map manifest)

/-- The document `docToTestStringContains` of the test-suite, decoded. -/
def docToTestStringContains : K8sManifest :=
  [("a", .map
    [("b", .str "hello world foo bar"),
     ("c", .str "multi\nline\nstring"),
     ("d", .str "\x7b\"name\":\"test\",\"nested\":\x7b\"value\":true\x7d\x7d"),
     ("e", .str "some:\n  nested: yaml\n  format: true\n")])]

/-- The second document of the multi-document tests, decoded. -/
def extraDoc : K8sManifest :=
  [("a", .map [("b", .str "different string")])]

/-- The JSON decoder on the texts of the test document: the text under `a.d`
decodes to its object, the plain sentence under `a.b` is rejected as the
decoder of Go rejects it; no other text is known to this table. -/
def sampleJsonUnmarshal (text : String) : Except String GoMap :=
  if text = "\x7b\"name\":\"test\",\"nested\":\x7b\"value\":true\x7d\x7d" then
    .ok [("name", .str "test"), ("nested", .map [("value", .bool true)])]
  else if text = "hello world foo bar" then
    .error "invalid character 'h' looking for beginning of value"
  else .error "text outside the table"

/-- The YAML decoder on the texts of the test document: the text under `a.e`
decodes to its mapping, a plain sentence is not a mapping; no other text is
known to this table. -/
def sampleYamlUnmarshal (text : String) : Except String GoMap :=
  if text = "some:\n  nested: yaml\n  format: true\n" then
    .ok [("some", .map [("nested", .str "yaml"), ("format", .bool true)])]
  else if text = "hello world foo bar" then
    .error "yaml: unmarshal errors:\n  line 1: cannot unmarshal !!str into map[string]interface \x7b\x7d"
  else .error "text outside the table"

/-- The YAML encoder on the contents used by the test-suite: a one-entry
mapping of strings is encoded as one `key: value` line, a scalar as its text
on a line. -/
def sampleMarshalYAML : Value → String
  | .map [(k, .str s)] => k ++ ": " ++ s ++ "\n"
  | .str s => s ++ "\n"
  | .bool true => "true\n"
  | .bool false => "false\n"
  | .int i => toString i ++ "\n"
  | .null => "null\n"
  | _ => "\n"

/-- The collaborators on the test document. -/
def sampleEnv : Env where
  GetValueOfSetPath := dottedPath
  TrustedMarshalYAML := sampleMarshalYAML
  jsonUnmarshal := sampleJsonUnmarshal
  yamlUnmarshal := sampleYamlUnmarshal

/-! ## Sample validators -/

/-- The validator of the first test: path `a.b`, content `hello world`, plain
mode. -/
def helloWorldValidator : StringContainsValidator :=
  ⟨"a.b", .str "hello world", false, false, false⟩

/-- A plain validator with the path given. -/
def plainValidator (path : String) : StringContainsValidator :=
  ⟨path, .str "hello world", false, false, false⟩

/-- The validator of the invalid-JSON test: path `a.b`, a mapping as content,
embedded-JSON mode. -/
def invalidJsonValidator : StringContainsValidator :=
  ⟨"a.b", .map [("key", .str "value")], false, true, false⟩

/-! ## Embedded decoding -/

/-- The expected content converts to a mapping, as `validateJSON` and
`validateYAML` convert it: a mapping as it is, a string through the YAML
decoder, any other value through the YAML encoder and decoder. -/
def contentDecodes (env : Env) (v : StringContainsValidator) : Bool :=
  match v.Content with
  | .map _ => true
  | .str content => (env.yamlUnmarshal content).toBool
  | _ => (env.yamlUnmarshal (env.TrustedMarshalYAML v.Content)).toBool

/-- The decoding that `validateSingle` performs on an actual text succeeds:
in embedded-JSON mode the text decodes as JSON and the content converts to a
mapping, in embedded-YAML mode the text decodes as YAML and the content
converts to a mapping, and plain mode decodes nothing. -/
def decodes (env : Env) (v : StringContainsValidator) (singleActual : String) : Bool :=
  if v.FromJson then (env.jsonUnmarshal singleActual).toBool && contentDecodes env v
  else if v.FromYaml then (env.yamlUnmarshal singleActual).toBool && contentDecodes env v
  else true

/-- The expected text of a diagnostic block, as `failInfo` and the plain mode
of `validateSingle` take it from the content: the content itself when it is a
string, its YAML encoding otherwise. -/
def expectedText (env : Env) (v : StringContainsValidator) : String :=
  match v.Content with
  | .str str => str
  | content => env.TrustedMarshalYAML content

/-- A text has no line feed, tab or space at its two ends. -/
def trimmed (t : String) : Bool :=
  (match t.data.head? with
    | some c => !isCutset c
    | none => true) &&
  (match t.data.getLast? with
    | some c => !isCutset c
    | none => true)

/-- Whether a whitespace run is open once `collapseSpace` has read a text:
after the empty text the state it started in, otherwise whether the last
character read is whitespace. -/
def runOpenAfter : Bool → List Char → Bool
  | inRun, [] => inRun
  | _, c :: cs => runOpenAfter (isSpace c) cs

/-! ## Go maps as association lists -/

/-- The assignment `m[k] = v` on a Go map: the entry of `k`, if any, is
replaced. -/
def setKey (m : GoMap) (k : String) (v : Value) : GoMap :=
  (k, v) :: m.filter (fun p => p.1 != k)

mutual
/-- The keys of every mapping inside a value are pairwise distinct, as the
keys of a Go map are. -/
def distinctKeys : Value → Bool
  | .seq xs => distinctKeysSeq xs
  | .map kvs => decide (kvs.map Prod.fst).Nodup && distinctKeysEntries kvs
  | _ => true
/-- The values of a slice all have distinct keys. -/
def distinctKeysSeq : List Value → Bool
  | [] => true
  | x :: xs => distinctKeys x && distinctKeysSeq xs
/-- The values of the entries of a map all have distinct keys. -/
def distinctKeysEntries : List (String × Value) → Bool
  | [] => true
  | (_, v) :: rest => distinctKeys v && distinctKeysEntries rest
end

mutual
/-- No float inside a value, at any depth, is a NaN. -/
def noNaN : Value → Bool
  | .float f => decide (f ≠ GoFloat.nan)
  | .seq xs => noNaNSeq xs
  | .map kvs => noNaNEntries kvs
  | _ => true
/-- No value of a slice holds a NaN. -/
def noNaNSeq : List Value → Bool
  | [] => true
  | x :: xs => noNaN x && noNaNSeq xs
/-- No value of the entries of a map holds a NaN. -/
def noNaNEntries : List (String × Value) → Bool
  | [] => true
  | (_, v) :: rest => noNaN v && noNaNEntries rest
end

/-! ## Numbers in embedded JSON -/

/-- The JSON text of an object with one integer member. -/
def numberText : String := "\x7b\"a\":1\x7d"

/-- A document whose entry `a.n` holds `numberText`. -/
def numberDoc : K8sManifest :=
  [("a", .map [("n", .str numberText)])]

/-- The collaborators on `numberDoc`: the JSON decoder of Go yields every
number as a `float64`, the YAML decoder yields an integer as an `int`. -/
def numberEnv : Env where
  GetValueOfSetPath := dottedPath
  TrustedMarshalYAML := sampleMarshalYAML
  jsonUnmarshal := fun text =>
    if text = numberText then .ok [("a", .float (.fin 1))] else sampleJsonUnmarshal text
  yamlUnmarshal := fun text =>
    if text = numberText then .ok [("a", .int 1)] else sampleYamlUnmarshal text

/-- The validator that expects `numberText` inside the embedded JSON under
`a.n`. -/
def numberValidator : StringContainsValidator :=
  ⟨"a.n", .str numberText, false, true, false⟩

/-- A document with a key that holds a line feed. -/
def lineFeedKeyDoc : K8sManifest :=
  [("a", .map [("x\ny", .str "hello")])]

/-! ## The text `null` in embedded JSON -/

/-- A document whose entry `a.z` is null. -/
def nullDoc : K8sManifest :=
  [("a", .map [("z", .null)])]

/-- The collaborators on `nullDoc`: the encoder writes a null value as the
text `null` on a line, and the JSON decoder of Go accepts that text for a map
and leaves the map nil, which stands here as the map without entries. -/
def nullEnv : Env where
  GetValueOfSetPath := dottedPath
  TrustedMarshalYAML := sampleMarshalYAML
  jsonUnmarshal := fun text => if text = "null\n" then .ok [] else sampleJsonUnmarshal text
  yamlUnmarshal := sampleYamlUnmarshal

/-- The validator that expects the entry `key: value` inside the embedded
JSON under `a.z`. -/
def nullValidator : StringContainsValidator :=
  ⟨"a.z", .map [("key", .str "value")], false, true, false⟩

/-! ## The assertion result (`pkg/unittest/results/assertion_result.go`) -/

/-- The record `AssertionResult`. -/
structure AssertionResult where
  Index : Int
  FailInfo : List String
  Passed : Bool
  Skipped : Bool
  SkipReason : String
  AssertType : String
  Not : Bool
  CustomInfo : String

/-- Modelled from the spec: the printer of the printer package, as the
reporter uses it (section 4.6). `Danger(format, args)` styles a text for the
terminal; what it returns is left open. -/
structure Printer where
  Danger : String → List String → String

/-- The lines emitted so far: each call `Println(content, indentLevel)` is
recorded with its content and its indent level. -/
abbrev Output := List (String × Int)

/-- Modelled from the spec: `Println(content, indentLevel)` of the printer
package emits one display line at an indent level (section 4.6). -/
def Println (out : Output) (content : String) (indentLevel : Int) : Output :=
  out ++ [(content, indentLevel)]

/-- Method `getTitle()`: the custom label when there is one, otherwise
`fmt.Sprintf` of the format with the index, the negation mark and the kind of
the assertion. -/
def AssertionResult.getTitle (ar : AssertionResult) : String :=
  if ar.CustomInfo ≠ "" then ar.CustomInfo
  else
    let notAnn := if ar.Not then " NOT" else ""
    "- asserts[" ++ toString ar.Index ++ "]" ++ notAnn ++ " `" ++ ar.AssertType ++ "` fail"

/-- The loop of `print` over the lines of `FailInfo`. -/
def printFailInfo : List String → Output → Output
  | [], out => out
  | infoLine :: rest, out => printFailInfo rest (Println out infoLine 3)

/-- Method `print(printer, verbosity)`, started on the lines emitted so far. -/
def AssertionResult.print (ar : AssertionResult) (printer : Printer) (_verbosity : Int)
    (out : Output) : Output :=
  if ar.Passed then out
  else
    let titled := Println out (printer.Danger "%s" [ar.getTitle]) 2
    let listed := printFailInfo ar.FailInfo titled
    Println listed "" 0

/-! # Theorems -/

/-! ## Per-value verdicts -/

/-- The conversion of the content to a mapping does not depend on the
indices, which only enter its error block: it yields the same mapping at all
indices when `contentDecodes` holds and an error at all indices otherwise. -/
theorem contentToMap_cases (env : Env) (v : StringContainsValidator) :
    (contentDecodes env v = true ∧ ∃ cm, ∀ m i : Int, contentToMap env v m i = .ok cm) ∨
    (contentDecodes env v = false ∧ ∀ m i : Int, ∃ e, contentToMap env v m i = .error e) := by
  unfold contentDecodes contentToMap
  generalize env.yamlUnmarshal (env.TrustedMarshalYAML v.Content) = r
  cases v.Content with
  | map kvs => exact Or.inl ⟨rfl, kvs, fun _ _ => rfl⟩
  | str c =>
    simp only []
    cases env.yamlUnmarshal c with
    | error err => exact Or.inr ⟨rfl, fun _ _ => ⟨_, rfl⟩⟩
    | ok cm => exact Or.inl ⟨rfl, cm, fun _ _ => rfl⟩
  | null =>
    cases r with
    | error err => exact Or.inr ⟨rfl, fun _ _ => ⟨_, rfl⟩⟩
    | ok cm => exact Or.inl ⟨rfl, cm, fun _ _ => rfl⟩
  | bool b =>
    cases r with
    | error err => exact Or.inr ⟨rfl, fun _ _ => ⟨_, rfl⟩⟩
    | ok cm => exact Or.inl ⟨rfl, cm, fun _ _ => rfl⟩
  | int n =>
    cases r with
    | error err => exact Or.inr ⟨rfl, fun _ _ => ⟨_, rfl⟩⟩
    | ok cm => exact Or.inl ⟨rfl, cm, fun _ _ => rfl⟩
  | float f =>
    cases r with
    | error err => exact Or.inr ⟨rfl, fun _ _ => ⟨_, rfl⟩⟩
    | ok cm => exact Or.inl ⟨rfl, cm, fun _ _ => rfl⟩
  | seq xs =>
    cases r with
    | error err => exact Or.inr ⟨rfl, fun _ _ => ⟨_, rfl⟩⟩
    | ok cm => exact Or.inl ⟨rfl, cm, fun _ _ => rfl⟩

theorem validateJSON_fst_index (env : Env) (v : StringContainsValidator) (s : String)
    (m i m' i' : Int) (ctx : ValidateContext) :
    (validateJSON env v s m i ctx).1 = (validateJSON env v s m' i' ctx).1 := by
  unfold validateJSON
  cases env.jsonUnmarshal s with
  | error err => rfl
  | ok jsonObj =>
    rcases contentToMap_cases env v with ⟨_, cm, hcm⟩ | ⟨_, herr⟩
    · simp only [hcm, apply_ite Prod.fst]
    · obtain ⟨e, he⟩ := herr m i
      obtain ⟨e', he'⟩ := herr m' i'
      simp only [he, he']

theorem validateYAML_fst_index (env : Env) (v : StringContainsValidator) (s : String)
    (m i m' i' : Int) (ctx : ValidateContext) :
    (validateYAML env v s m i ctx).1 = (validateYAML env v s m' i' ctx).1 := by
  unfold validateYAML
  cases env.yamlUnmarshal s with
  | error err => rfl
  | ok yamlObj =>
    rcases contentToMap_cases env v with ⟨_, cm, hcm⟩ | ⟨_, herr⟩
    · simp only [hcm, apply_ite Prod.fst]
    · obtain ⟨e, he⟩ := herr m i
      obtain ⟨e', he'⟩ := herr m' i'
      simp only [he, he']

/-- The verdict of `validateSingle` does not depend on the two indices, which
only enter the diagnostics. -/
theorem validateSingle_fst_index (env : Env) (v : StringContainsValidator) (s : String)
    (m i m' i' : Int) (ctx : ValidateContext) :
    (validateSingle env v s m i ctx).1 = (validateSingle env v s m' i' ctx).1 := by
  unfold validateSingle
  split
  · exact validateJSON_fst_index env v s m i m' i' ctx
  · split
    · exact validateYAML_fst_index env v s m i m' i' ctx
    · simp only [apply_ite Prod.fst]

/-- C1: in plain mode with a string content `c`, the verdict of
`validateSingle` is `found XOR negative`, where `found` tells whether `c`
occurs in the actual text, both sides whitespace-folded first when
`IgnoreFormatting` is set. -/
theorem validateSingle_plain_verdict (env : Env) (v : StringContainsValidator)
    (a c : String) (m i : Int) (ctx : ValidateContext)
    (hj : v.FromJson = false) (hy : v.FromYaml = false) (hc : v.Content = .str c) :
    (validateSingle env v a m i ctx).1 =
      xor (if v.IgnoreFormatting
            then decide ((normalizeWhitespace c).data <:+: (normalizeWhitespace a).data)
            else decide (c.data <:+: a.data)) ctx.Negative := by
  unfold validateSingle stringsContains
  simp only [hj, hy, hc, Bool.false_eq_true, if_false]
  cases v.IgnoreFormatting <;> cases ctx.Negative <;>
    simp only [Bool.false_eq_true, if_false, if_true] <;>
    split <;> simp_all

/-- Function `validateSingle` reads only the negation flag of the context. -/
theorem validateSingle_congr_ctx (env : Env) (v : StringContainsValidator) (s : String)
    (m i : Int) (ctx ctx' : ValidateContext) (h : ctx.Negative = ctx'.Negative) :
    validateSingle env v s m i ctx = validateSingle env v s m i ctx' := by
  unfold validateSingle validateJSON validateYAML
  rw [h]

/-! ## The loop over the values of a document -/

/-- After the first value the loop computes the conjunction of the running
verdict with the verdicts of the remaining values. -/
theorem validateValues_fst_succ (env : Env) (v : StringContainsValidator) (m : Nat)
    (ctx : ValidateContext) :
    ∀ (rest : List Value) (k : Nat) (s : Bool) (errs : List String), k ≠ 0 →
      (validateValues env v m ctx k rest s errs).1 =
        (s && rest.all (fun x => (validateSingle env v (actualText env x) 0 0 ctx).1))
  | [], k, s, errs, _ => by simp [validateValues]
  | x :: rest, k, s, errs, hk => by
    rw [validateValues]
    simp only [determineSuccess, hk, if_false]
    rw [validateSingle_fst_index env v _ m k 0 0]
    split
    · rename_i hb
      simp only [Bool.and_eq_true, Bool.not_eq_true'] at hb
      rw [hb.1, List.all_cons, ← Bool.and_assoc, hb.1, Bool.false_and]
    · rw [validateValues_fst_succ env v m ctx rest (k + 1) _ _ (Nat.succ_ne_zero k)]
      simp [Bool.and_assoc]

/-- On a non-empty list of values the loop, started at index 0, computes the
conjunction of the verdicts of all values, whatever the initial verdict. -/
theorem validateValues_fst_zero (env : Env) (v : StringContainsValidator) (m : Nat)
    (ctx : ValidateContext) (x : Value) (rest : List Value) (s : Bool) (errs : List String) :
    (validateValues env v m ctx 0 (x :: rest) s errs).1 =
      (x :: rest).all (fun x => (validateSingle env v (actualText env x) 0 0 ctx).1) := by
  rw [validateValues]
  simp only [determineSuccess, if_true]
  rw [validateSingle_fst_index env v _ m (0 : Nat) 0 0]
  split
  · rename_i hb
    simp only [Bool.and_eq_true, Bool.not_eq_true'] at hb
    rw [hb.1, List.all_cons, hb.1, Bool.false_and]
  · rw [validateValues_fst_succ env v m ctx rest (0 + 1) _ _ (Nat.succ_ne_zero 0)]
    simp

/-! ## The verdict of a document -/

/-- The verdict of `validateManifest`: false on a resolution error, the
negation flag when no value is resolved, the conjunction of the per-value
verdicts otherwise. -/
theorem validateManifest_fst (env : Env) (v : StringContainsValidator) (d : K8sManifest)
    (m : Nat) (ctx : ValidateContext) :
    (validateManifest env v d m ctx).1 =
      match env.GetValueOfSetPath d v.Path with
      | .error _ => false
      | .ok [] => ctx.Negative
      | .ok (x :: rest) =>
        (x :: rest).all (fun x => (validateSingle env v (actualText env x) 0 0 ctx).1) := by
  unfold validateManifest
  cases env.GetValueOfSetPath d v.Path with
  | error err => rfl
  | ok actual =>
    cases actual with
    | nil => cases hn : ctx.Negative <;> simp [validateValues]
    | cons x rest =>
      simp only [List.length_cons, Nat.succ_ne_zero, decide_False, Bool.false_and,
        Bool.false_eq_true, if_false]
      exact validateValues_fst_zero env v m ctx x rest _ _

/-- The verdict of a document does not depend on its index. -/
theorem validateManifest_fst_index (env : Env) (v : StringContainsValidator) (d : K8sManifest)
    (m m' : Nat) (ctx : ValidateContext) :
    (validateManifest env v d m ctx).1 = (validateManifest env v d m' ctx).1 := by
  rw [validateManifest_fst, validateManifest_fst]

/-- The verdict of a document depends on the context through the negation
flag only. -/
theorem validateManifest_fst_congr_ctx (env : Env) (v : StringContainsValidator)
    (d : K8sManifest) (m : Nat) (ctx ctx' : ValidateContext)
    (h : ctx.Negative = ctx'.Negative) :
    (validateManifest env v d m ctx).1 = (validateManifest env v d m ctx').1 := by
  rw [validateManifest_fst, validateManifest_fst, h]
  simp only [validateSingle_congr_ctx env v _ 0 0 ctx ctx' h]

/-- C2: when the path resolves without error to a non-empty list of values,
the verdict of `validateManifest` is true exactly when `validateSingle`,
applied to the text of each resolved value at its index, yields true for
every value; this holds for every configuration, negation flag and fail-fast
flag. -/
theorem validateManifest_verdict_iff_all (env : Env) (v : StringContainsValidator)
    (manifest : K8sManifest) (manifestIndex : Nat) (ctx : ValidateContext)
    (actual : List Value)
    (hres : env.GetValueOfSetPath manifest v.Path = .ok actual) (hne : actual ≠ []) :
    (validateManifest env v manifest manifestIndex ctx).1 = true ↔
      ∀ (valuesIndex : Nat) (h : valuesIndex < actual.length),
        (validateSingle env v (actualText env (actual.get ⟨valuesIndex, h⟩))
          manifestIndex valuesIndex ctx).1 = true := by
  rw [validateManifest_fst, hres]
  cases actual with
  | nil => exact absurd rfl hne
  | cons x rest =>
    simp only [List.all_eq_true]
    rw [List.forall_mem_iff_getElem]
    constructor
    · intro h i hi
      rw [validateSingle_fst_index env v _ manifestIndex i 0 0]
      exact h i hi
    · intro h i hi
      rw [← validateSingle_fst_index env v _ manifestIndex i 0 0]
      exact h i hi

/-! ## The loop over the documents -/

/-- After the first document the loop computes the conjunction of the running
verdict with the verdicts of the remaining documents. -/
theorem validateDocs_fst_succ (env : Env) (v : StringContainsValidator)
    (ctx : ValidateContext) :
    ∀ (rest : List K8sManifest) (k : Nat) (s : Bool) (errs : List String), k ≠ 0 →
      (validateDocs env v ctx k rest s errs).1 =
        (s && rest.all (fun d => (validateManifest env v d 0 ctx).1))
  | [], k, s, errs, _ => by simp [validateDocs]
  | d :: rest, k, s, errs, hk => by
    rw [validateDocs]
    simp only [determineSuccess, hk, if_false]
    rw [validateManifest_fst_index env v d k 0]
    split
    · rename_i hb
      simp only [Bool.and_eq_true, Bool.not_eq_true'] at hb
      rw [hb.1, List.all_cons, ← Bool.and_assoc, hb.1, Bool.false_and]
    · rw [validateDocs_fst_succ env v ctx rest (k + 1) _ _ (Nat.succ_ne_zero k)]
      simp [Bool.and_assoc]

/-- On a non-empty list of documents the loop, started at index 0, computes
the conjunction of the verdicts of all documents. -/
theorem validateDocs_fst_zero (env : Env) (v : StringContainsValidator)
    (ctx : ValidateContext) (d : K8sManifest) (rest : List K8sManifest) (s : Bool)
    (errs : List String) :
    (validateDocs env v ctx 0 (d :: rest) s errs).1 =
      (d :: rest).all (fun d => (validateManifest env v d 0 ctx).1) := by
  rw [validateDocs]
  simp only [determineSuccess, if_true]
  split
  · rename_i hb
    simp only [Bool.and_eq_true, Bool.not_eq_true'] at hb
    rw [hb.1, List.all_cons, hb.1, Bool.false_and]
  · rw [validateDocs_fst_succ env v ctx rest (0 + 1) _ _ (Nat.succ_ne_zero 0)]
    simp

/-- The verdict of `Validate`: the negation flag on an empty document list,
the conjunction of the verdicts of the documents otherwise. -/
theorem Validate_fst (env : Env) (v : StringContainsValidator) (ctx : ValidateContext) :
    (Validate env v ctx).1 =
      match ctx.Docs with
      | [] => ctx.Negative
      | d :: rest => (d :: rest).all (fun d => (validateManifest env v d 0 ctx).1) := by
  unfold Validate ValidateContext.getManifests
  cases hd : ctx.Docs with
  | nil => cases hn : ctx.Negative <;> simp [validateDocs]
  | cons d rest =>
    simp only [List.length_cons, Nat.succ_ne_zero, decide_False, Bool.false_and,
      Bool.false_eq_true, if_false]
    exact validateDocs_fst_zero env v ctx d rest _ _

/-- C3: on a non-empty document list, with fail-fast on or off, the boolean
result of `Validate` is true exactly when `validateManifest` yields true for
every document of the list at its index. -/
theorem Validate_verdict_iff_all (env : Env) (v : StringContainsValidator)
    (ctx : ValidateContext) (hne : ctx.Docs ≠ []) :
    (Validate env v ctx).1 = true ↔
      ∀ (manifestIndex : Nat) (h : manifestIndex < ctx.Docs.length),
        (validateManifest env v (ctx.Docs.get ⟨manifestIndex, h⟩) manifestIndex ctx).1
          = true := by
  rw [Validate_fst]
  cases hd : ctx.Docs with
  | nil => exact absurd hd hne
  | cons d rest =>
    simp only [List.all_eq_true]
    rw [List.forall_mem_iff_getElem]
    constructor
    · intro h i hi
      rw [validateManifest_fst_index env v _ i 0]
      exact h i hi
    · intro h i hi
      rw [← validateManifest_fst_index env v _ i 0]
      exact h i hi

/-- C9: for every configuration, negation flag and document list, `Validate`
with fail-fast on returns the same boolean as `Validate` with fail-fast
off. -/
theorem Validate_verdict_failFast (env : Env) (v : StringContainsValidator)
    (docs : List K8sManifest) (negative : Bool) :
    (Validate env v ⟨docs, negative, true⟩).1 = (Validate env v ⟨docs, negative, false⟩).1 := by
  rw [Validate_fst, Validate_fst]
  cases docs with
  | nil => rfl
  | cons d rest =>
    simp only [validateManifest_fst_congr_ctx env v _ 0 ⟨d :: rest, negative, true⟩
      ⟨d :: rest, negative, false⟩ rfl]

/-! ## Structural containment -/

/-- The loop of `containsMap` succeeds exactly when every entry of the small
map finds its key in the big map and passes the body of the loop. -/
theorem containsMap_iff_entries (bigMap : GoMap) :
    ∀ smallMap : GoMap, containsMap bigMap smallMap = true ↔
      ∀ k smallVal, (k, smallVal) ∈ smallMap →
        ∃ bigVal, bigMap.lookup k = some bigVal ∧ containsEntry bigVal smallVal = true
  | [] => by simp [containsMap]
  | (k, smallVal) :: rest => by
    rw [containsMap, Bool.and_eq_true, containsMap_iff_entries bigMap rest]
    constructor
    · rintro ⟨h1, h2⟩ k' sv' hmem
      rcases List.mem_cons.1 hmem with heq | hmem'
      · cases heq
        cases hl : List.lookup k bigMap with
        | none => rw [hl] at h1; exact absurd h1 (by simp)
        | some bigVal => rw [hl] at h1; exact ⟨bigVal, rfl, h1⟩
      · exact h2 k' sv' hmem'
    · intro h
      refine ⟨?_, fun k' sv' hmem => h k' sv' (List.mem_cons_of_mem _ hmem)⟩
      obtain ⟨bigVal, hl, hc⟩ := h k smallVal (List.mem_cons_self _ _)
      rw [hl]
      exact hc

/-- A mapping is deep-equal to mappings only. -/
theorem deepEqual_map_right (bigVal : Value) (sm : GoMap)
    (h : deepEqual bigVal (.map sm) = true) : ∃ bm, bigVal = .map bm := by
  cases bigVal with
  | map bm => exact ⟨bm, rfl⟩
  | null => simp [deepEqual] at h
  | bool b => simp [deepEqual] at h
  | int i => simp [deepEqual] at h
  | float f => simp [deepEqual] at h
  | str s => simp [deepEqual] at h
  | seq xs => simp [deepEqual] at h

/-- The body of the loop of `containsMap`: recursion when both values are
mappings, deep equality otherwise. -/
theorem containsEntry_iff (bigVal smallVal : Value) :
    containsEntry bigVal smallVal = true ↔
      (∀ bm sm, bigVal = .map bm → smallVal = .map sm → containsMap bm sm = true) ∧
      ((¬ ∃ bm sm, bigVal = .map bm ∧ smallVal = .map sm) →
        deepEqual bigVal smallVal = true) := by
  cases smallVal with
  | map sm =>
    cases bigVal with
    | map bm =>
      rw [containsEntry]
      constructor
      · intro h
        refine ⟨?_, fun hn => absurd ⟨bm, sm, rfl, rfl⟩ hn⟩
        intro bm' sm' hb hs
        cases hb
        cases hs
        exact h
      · intro h
        exact h.1 bm sm rfl rfl
    | null => simp [containsEntry, deepEqual]
    | bool b => simp [containsEntry, deepEqual]
    | int i => simp [containsEntry, deepEqual]
    | float f => simp [containsEntry, deepEqual]
    | str s => simp [containsEntry, deepEqual]
    | seq xs => simp [containsEntry, deepEqual]
  | null => simp [containsEntry]
  | bool b => simp [containsEntry]
  | int i => simp [containsEntry]
  | float f => simp [containsEntry]
  | str s => simp [containsEntry]
  | seq xs => simp [containsEntry]

/-- C4: `containsMap(big, small)` is true exactly when every key `k` of
`small` is a key of `big` and, for the values `small[k]` and `big[k]`, the
containment holds recursively when both are mappings and `big[k]` is
deep-equal to `small[k]` otherwise. -/
theorem containsMap_iff (bigMap smallMap : GoMap) :
    containsMap bigMap smallMap = true ↔
      ∀ k smallVal, (k, smallVal) ∈ smallMap →
        ∃ bigVal, bigMap.lookup k = some bigVal ∧
          (∀ bm sm, bigVal = .map bm → smallVal = .map sm → containsMap bm sm = true) ∧
          ((¬ ∃ bm sm, bigVal = .map bm ∧ smallVal = .map sm) →
            deepEqual bigVal smallVal = true) := by
  rw [containsMap_iff_entries]
  simp only [containsEntry_iff]

/-! ## Diagnostics -/

theorem splitLines_ne_nil : ∀ l : List Char, splitLines l ≠ []
  | [] => by simp [splitLines]
  | c :: cs => by
    rw [splitLines]
    split
    · simp
    · split <;> simp

/-- A text without line feed is one line. -/
theorem splitLines_of_not_mem : ∀ l : List Char, '\n' ∉ l → splitLines l = [l]
  | [], _ => rfl
  | c :: cs, h => by
    have hc : c ≠ '\n' := fun e => h (by simp [e])
    have hcs : '\n' ∉ cs := fun e => h (List.mem_cons_of_mem _ e)
    rw [splitLines, if_neg hc, splitLines_of_not_mem cs hcs]

theorem indentReplacement_ne_nil (r : String) : indentReplacement r ≠ [] := by
  unfold indentReplacement
  intro h
  exact splitLines_ne_nil _ (List.map_eq_nil_iff.1 h)

/-- The empty label leaves the lines of a replacement as they are. -/
theorem continueLabel_empty (r : String) :
    continueLabel "" (indentReplacement r) = indentReplacement r := by
  cases h : indentReplacement r with
  | nil => exact absurd h (indentReplacement_ne_nil r)
  | cons l ls => rw [continueLabel, String.empty_append]

/-- Every line of an indented replacement begins with a tab. -/
theorem indentReplacement_tab (r : String) (line : String) (h : line ∈ indentReplacement r) :
    ∃ l, line.data = '\t' :: l := by
  unfold indentReplacement at h
  obtain ⟨l, _, rfl⟩ := List.mem_map.1 h
  exact ⟨l, rfl⟩

/-- The error block of a document: the document index, the line `Error:`, the
indented message. -/
theorem splitInfof_error (m : Nat) (msg : String) :
    splitInfof errorFormat m (-1) [msg] =
      ("DocumentIndex:\t" ++ toString m) :: "Error:" :: indentReplacement msg := by
  simp [splitInfof, errorFormat, fillFormat, continueLabel_empty]
  rfl

/-- Trimming leaves a text that begins and ends outside the cutset. -/
theorem trimCutset_eq_self (c d : Char) (mid : List Char) (hc : isCutset c = false)
    (hd : isCutset d = false) : trimCutset (c :: (mid ++ [d])) = c :: (mid ++ [d]) := by
  unfold trimCutset
  rw [List.dropWhile_cons, hc]
  simp only [Bool.false_eq_true, if_false]
  have hr : (c :: (mid ++ [d])).reverse = d :: (c :: mid).reverse := by simp
  rw [hr, List.dropWhile_cons, hd]
  simp

/-- The message of an unknown path is laid out on one line when the path has
no line feed and ends outside the cutset. -/
theorem indentReplacement_unknown_path (p : String) (hnl : '\n' ∉ p.data)
    (hlast : ∃ c, p.data.getLast? = some c ∧ isCutset c = false) :
    indentReplacement ("unknown path " ++ p) = ["\tunknown path " ++ p] := by
  obtain ⟨c, hc, hcut⟩ := hlast
  obtain ⟨ys, hys⟩ := List.getLast?_eq_some_iff.1 hc
  have hdata : ("unknown path " ++ p).data =
      'u' :: (("nknown path ".data ++ ys) ++ [c]) := by
    rw [String.data_append, hys]
    rfl
  have hno : '\n' ∉ ("unknown path " ++ p).data := by
    rw [String.data_append]
    intro hmem
    rcases List.mem_append.1 hmem with h | h
    · revert h
      decide
    · exact hnl h
  unfold indentReplacement
  rw [hdata, trimCutset_eq_self 'u' c _ (by decide) hcut, ← hdata,
    splitLines_of_not_mem _ hno]
  simp only [List.map_cons, List.map_nil]
  congr 1

/-! ## Empty document list, unresolved paths, resolution errors -/

/-- C5: on an empty document list, for every configuration and either
fail-fast setting, `Validate` returns false with a non-empty diagnostic
sequence whose last line is the indented text `no manifest found` when
negation is off, and returns true with no diagnostics when negation is on. -/
theorem Validate_empty_docs (env : Env) (v : StringContainsValidator)
    (ctx : ValidateContext) (hdocs : ctx.Docs = []) :
    (ctx.Negative = false →
      ∃ front, Validate env v ctx = (false, front ++ ["\tno manifest found"])) ∧
    (ctx.Negative = true → Validate env v ctx = (true, [])) := by
  constructor
  · intro hn
    refine ⟨["DocumentIndex:\t0"] ++ continueLabel "Path:" (indentReplacement v.Path) ++
      ["Expected to contain:"] ++
      indentReplacement (match v.Content with
        | .str str => str
        | content => env.TrustedMarshalYAML content) ++ ["Actual:"], ?_⟩
    have hlast : indentReplacement "no manifest found" = ["\tno manifest found"] := by decide
    simp [Validate, ValidateContext.getManifests, hdocs, hn, validateDocs, failInfo,
      splitInfof, setFailFormat, fillFormat, continueLabel_empty, hlast]
    constructor <;> decide
  · intro hn
    simp [Validate, ValidateContext.getManifests, hdocs, hn, validateDocs]

/-- C6, amended: when the path `p` of a document at index `m` resolves
without error to zero values, `validateManifest` with negation on returns
true with no diagnostics; with negation off it returns false with the lines
`DocumentIndex:\tm`, `Error:` and the indented lines of the message
`unknown path p`, which are the single line `\tunknown path p` when `p` has no
line feed and ends in a character other than a line feed, a tab or a space. -/
theorem validateManifest_no_value (env : Env) (v : StringContainsValidator)
    (manifest : K8sManifest) (m : Nat) (ctx : ValidateContext)
    (hres : env.GetValueOfSetPath manifest v.Path = .ok []) :
    (ctx.Negative = true → validateManifest env v manifest m ctx = (true, [])) ∧
    (ctx.Negative = false →
      validateManifest env v manifest m ctx =
        (false, ("DocumentIndex:\t" ++ toString m) :: "Error:" ::
          indentReplacement ("unknown path " ++ v.Path))) ∧
    (ctx.Negative = false → '\n' ∉ v.Path.data →
      (∃ c, v.Path.data.getLast? = some c ∧ isCutset c = false) →
      validateManifest env v manifest m ctx =
        (false, ["DocumentIndex:\t" ++ toString m, "Error:", "\tunknown path " ++ v.Path])) := by
  have hoff : ctx.Negative = false →
      validateManifest env v manifest m ctx =
        (false, ("DocumentIndex:\t" ++ toString m) :: "Error:" ::
          indentReplacement ("unknown path " ++ v.Path)) := by
    intro hn
    unfold validateManifest
    rw [hres]
    simp only [hn, List.length_nil, decide_True, Bool.not_false, Bool.and_self, if_true]
    rw [splitInfof_error]
  refine ⟨?_, hoff, ?_⟩
  · intro hn
    unfold validateManifest
    rw [hres]
    simp [hn, validateValues]
  · intro hn hnl hlast
    rw [hoff hn, indentReplacement_unknown_path v.Path hnl hlast]

/-- C7: when path resolution returns an error for a document of the list,
`Validate` returns false for both values of the negation flag and both values
of the fail-fast flag; `validateManifest` on that document returns false with
the document index, the line `Error:` and the indented error message, and no
line of these diagnostics begins with the label `ValuesIndex:`. -/
theorem Validate_resolution_error (env : Env) (v : StringContainsValidator)
    (docs : List K8sManifest) (negative failFast : Bool) (doc : K8sManifest) (err : String)
    (hmem : doc ∈ docs) (herr : env.GetValueOfSetPath doc v.Path = .error err) :
    (Validate env v ⟨docs, negative, failFast⟩).1 = false ∧
    ∀ m : Nat,
      validateManifest env v doc m ⟨docs, negative, failFast⟩ =
        (false, ("DocumentIndex:\t" ++ toString m) :: "Error:" :: indentReplacement err) ∧
      (validateManifest env v doc m ⟨docs, negative, failFast⟩).2 ≠ [] ∧
      ∀ line ∈ (validateManifest env v doc m ⟨docs, negative, failFast⟩).2,
        ¬ ("ValuesIndex:".data <+: line.data) := by
  have hdoc : ∀ m : Nat, validateManifest env v doc m ⟨docs, negative, failFast⟩ =
      (false, ("DocumentIndex:\t" ++ toString m) :: "Error:" :: indentReplacement err) := by
    intro m
    unfold validateManifest
    rw [herr]
    simp only []
    rw [splitInfof_error]
  constructor
  · rw [Validate_fst]
    cases docs with
    | nil => exact absurd hmem (List.not_mem_nil _)
    | cons d rest =>
      simp only []
      rw [Bool.eq_false_iff]
      intro hall
      have := List.all_eq_true.1 hall doc hmem
      rw [hdoc 0] at this
      exact absurd this (by simp)
  · intro m
    refine ⟨hdoc m, ?_, ?_⟩
    · rw [hdoc m]
      simp
    · rw [hdoc m]
      intro line hline hpre
      simp only [List.mem_cons] at hline
      rcases hline with h | h | h
      · subst h
        rw [String.data_append] at hpre
        obtain ⟨t, ht⟩ := hpre
        have hV : "ValuesIndex:".data = 'V' :: "aluesIndex:".data := rfl
        have hD : "DocumentIndex:\t".data = 'D' :: "ocumentIndex:\t".data := rfl
        rw [hV, hD] at ht
        have hhead := (List.cons.injEq _ _ _ _ ▸ ht : _ ∧ _).1
        exact absurd hhead (by decide)
      · subst h
        revert hpre
        decide
      · obtain ⟨l, hl⟩ := indentReplacement_tab err line h
        rw [hl] at hpre
        obtain ⟨t, ht⟩ := hpre
        have hV : "ValuesIndex:".data = 'V' :: "aluesIndex:".data := rfl
        rw [hV] at ht
        have hhead := (List.cons.injEq _ _ _ _ ▸ ht : _ ∧ _).1
        exact absurd hhead (by decide)

/-! ## Negation -/

/-- When the embedded decoding fails, the verdict of a value is false under
both polarities. -/
theorem validateSingle_fst_of_not_decodes (env : Env) (v : StringContainsValidator)
    (a : String) (m i : Int) (ctx : ValidateContext) (h : decodes env v a = false) :
    (validateSingle env v a m i ctx).1 = false := by
  unfold decodes at h
  unfold validateSingle validateJSON validateYAML
  cases hj : v.FromJson <;> cases hy : v.FromYaml <;> simp only [hj, hy] at h ⊢ <;>
    simp only [Bool.false_eq_true, if_false, if_true] at h ⊢
  · exact absurd h (by simp)
  · cases hu : env.yamlUnmarshal a with
    | error err => rfl
    | ok obj =>
      rcases contentToMap_cases env v with ⟨hd, _⟩ | ⟨_, herr⟩
      · simp [hu, hd, Except.toBool] at h
      · obtain ⟨e, he⟩ := herr m i
        simp only [he]
  · cases hu : env.jsonUnmarshal a with
    | error err => rfl
    | ok obj =>
      rcases contentToMap_cases env v with ⟨hd, _⟩ | ⟨_, herr⟩
      · simp [hu, hd, Except.toBool] at h
      · obtain ⟨e, he⟩ := herr m i
        simp only [he]
  · cases hu : env.jsonUnmarshal a with
    | error err => rfl
    | ok obj =>
      rcases contentToMap_cases env v with ⟨hd, _⟩ | ⟨_, herr⟩
      · simp [hu, hd, Except.toBool] at h
      · obtain ⟨e, he⟩ := herr m i
        simp only [he]

/-- When the embedded decoding succeeds, the verdict of a value under
negation is the complement of its verdict without negation. -/
theorem validateSingle_fst_of_decodes (env : Env) (v : StringContainsValidator)
    (a : String) (m i : Int) (ctxN ctxP : ValidateContext)
    (hN : ctxN.Negative = true) (hP : ctxP.Negative = false)
    (h : decodes env v a = true) :
    (validateSingle env v a m i ctxN).1 = !(validateSingle env v a m i ctxP).1 := by
  unfold decodes at h
  unfold validateSingle validateJSON validateYAML
  rw [hN, hP]
  cases hj : v.FromJson <;> cases hy : v.FromYaml <;> simp only [hj, hy] at h ⊢ <;>
    simp only [Bool.false_eq_true, if_false, if_true] at h ⊢
  · simp only [apply_ite Prod.fst]
    cases v.IgnoreFormatting <;> simp only [Bool.false_eq_true, if_false, if_true] <;>
      cases stringsContains _ _ <;> rfl
  · cases hu : env.yamlUnmarshal a with
    | error err => simp [hu, Except.toBool] at h
    | ok obj =>
      rcases contentToMap_cases env v with ⟨_, cm, hcm⟩ | ⟨hd, _⟩
      · simp only [hcm, apply_ite Prod.fst]
        cases containsMap obj cm <;> rfl
      · simp [hu, hd, Except.toBool] at h
  · cases hu : env.jsonUnmarshal a with
    | error err => simp [hu, Except.toBool] at h
    | ok obj =>
      rcases contentToMap_cases env v with ⟨_, cm, hcm⟩ | ⟨hd, _⟩
      · simp only [hcm, apply_ite Prod.fst]
        cases containsMap obj cm <;> rfl
      · simp [hu, hd, Except.toBool] at h
  · cases hu : env.jsonUnmarshal a with
    | error err => simp [hu, Except.toBool] at h
    | ok obj =>
      rcases contentToMap_cases env v with ⟨_, cm, hcm⟩ | ⟨hd, _⟩
      · simp only [hcm, apply_ite Prod.fst]
        cases containsMap obj cm <;> rfl
      · simp [hu, hd, Except.toBool] at h

/-- The verdict of `Validate` on one document that resolves to one value is
the verdict of that value. -/
theorem Validate_fst_single (env : Env) (v : StringContainsValidator) (doc : K8sManifest)
    (x : Value) (negative failFast : Bool)
    (hres : env.GetValueOfSetPath doc v.Path = .ok [x]) :
    (Validate env v ⟨[doc], negative, failFast⟩).1 =
      (validateSingle env v (actualText env x) 0 0 ⟨[doc], negative, failFast⟩).1 := by
  rw [Validate_fst]
  simp only [List.all_cons, List.all_nil, Bool.and_true]
  rw [validateManifest_fst, hres]
  simp only [List.all_cons, List.all_nil, Bool.and_true]

/-- C8, amended: for a single document whose path resolves to exactly one
value, in every mode and for every content: when the embedded decoding of the
value succeeds (always so in plain mode), `Validate` with negation passes
exactly when `Validate` without negation fails; when the embedded decoding
fails, `Validate` fails with and without negation. -/
theorem Validate_negation_complement (env : Env) (v : StringContainsValidator)
    (doc : K8sManifest) (x : Value) (failFastN failFastP : Bool)
    (hres : env.GetValueOfSetPath doc v.Path = .ok [x]) :
    (decodes env v (actualText env x) = true →
      ((Validate env v ⟨[doc], true, failFastN⟩).1 = true ↔
        (Validate env v ⟨[doc], false, failFastP⟩).1 = false)) ∧
    (decodes env v (actualText env x) = false →
      (Validate env v ⟨[doc], true, failFastN⟩).1 = false ∧
        (Validate env v ⟨[doc], false, failFastP⟩).1 = false) := by
  rw [Validate_fst_single env v doc x true failFastN hres,
    Validate_fst_single env v doc x false failFastP hres]
  constructor
  · intro h
    rw [validateSingle_fst_of_decodes env v _ 0 0 ⟨[doc], true, failFastN⟩
      ⟨[doc], false, failFastP⟩ rfl rfl h]
    simp
  · intro h
    exact ⟨validateSingle_fst_of_not_decodes env v _ 0 0 _ h,
      validateSingle_fst_of_not_decodes env v _ 0 0 _ h⟩

/-- C8, as stated, fails: on the test document with path `a.b` in
embedded-JSON mode the value does not decode, and `Validate` fails with
negation as it fails without. -/
theorem Validate_negation_complement_fails :
    sampleEnv.GetValueOfSetPath docToTestStringContains "a.b"
        = .ok [.str "hello world foo bar"] ∧
      ¬ ((Validate sampleEnv invalidJsonValidator
            ⟨[docToTestStringContains], true, false⟩).1 = true ↔
          (Validate sampleEnv invalidJsonValidator
            ⟨[docToTestStringContains], false, false⟩).1 = false) :=
  ⟨rfl, by decide⟩

/-! ## Fail-fast and the diagnostics -/

/-- The loop over the values only appends to the diagnostics. -/
theorem validateValues_snd_extends (env : Env) (v : StringContainsValidator) (m : Nat)
    (ctx : ValidateContext) :
    ∀ (rest : List Value) (k : Nat) (s : Bool) (errs : List String),
      errs <+: (validateValues env v m ctx k rest s errs).2
  | [], _, _, errs => List.prefix_refl errs
  | x :: rest, k, s, errs => by
    rw [validateValues]
    split
    · exact List.prefix_append _ _
    · exact (List.prefix_append _ _).trans (validateValues_snd_extends env v m ctx rest _ _ _)

/-- The loop over the documents only appends to the diagnostics. -/
theorem validateDocs_snd_extends (env : Env) (v : StringContainsValidator)
    (ctx : ValidateContext) :
    ∀ (rest : List K8sManifest) (k : Nat) (s : Bool) (errs : List String),
      errs <+: (validateDocs env v ctx k rest s errs).2
  | [], _, _, errs => List.prefix_refl errs
  | d :: rest, k, s, errs => by
    rw [validateDocs]
    split
    · exact List.prefix_append _ _
    · exact (List.prefix_append _ _).trans (validateDocs_snd_extends env v ctx rest _ _ _)

/-- With fail-fast on, the loop over the values collects a prefix of what it
collects under any context of the same polarity, and all of it when its
verdict is true. -/
theorem validateValues_failFast (env : Env) (v : StringContainsValidator) (m : Nat)
    (ctx ctx' : ValidateContext) (hN : ctx.Negative = ctx'.Negative)
    (hF : ctx.FailFast = true) :
    ∀ (rest : List Value) (k : Nat) (s : Bool) (errs : List String),
      (validateValues env v m ctx k rest s errs).2 <+:
          (validateValues env v m ctx' k rest s errs).2 ∧
        ((validateValues env v m ctx k rest s errs).1 = true →
          (validateValues env v m ctx k rest s errs).2 =
            (validateValues env v m ctx' k rest s errs).2)
  | [], _, _, errs => ⟨List.prefix_refl errs, fun _ => rfl⟩
  | x :: rest, k, s, errs => by
    rw [validateValues, validateValues]
    simp only [hF, Bool.and_true]
    rw [validateSingle_congr_ctx env v _ m k ctx ctx' hN]
    cases hs : determineSuccess k s
        (validateSingle env v (actualText env x) m k ctx').1
    · simp only [Bool.not_false, if_true, Bool.true_and]
      refine ⟨?_, fun h => absurd h (by simp)⟩
      split
      · exact List.prefix_refl _
      · exact validateValues_snd_extends env v m ctx' rest _ _ _
    · simp only [Bool.not_true, Bool.false_eq_true, if_false, Bool.false_and]
      exact validateValues_failFast env v m ctx ctx' hN hF rest _ _ _

/-- With fail-fast on, a document yields a prefix of the diagnostics that it
yields under any context of the same polarity, and all of them when it
passes. -/
theorem validateManifest_failFast (env : Env) (v : StringContainsValidator)
    (d : K8sManifest) (m : Nat) (ctx ctx' : ValidateContext)
    (hN : ctx.Negative = ctx'.Negative) (hF : ctx.FailFast = true) :
    (validateManifest env v d m ctx).2 <+: (validateManifest env v d m ctx').2 ∧
      ((validateManifest env v d m ctx).1 = true →
        (validateManifest env v d m ctx).2 = (validateManifest env v d m ctx').2) := by
  unfold validateManifest
  rw [hN]
  cases env.GetValueOfSetPath d v.Path with
  | error err => exact ⟨List.prefix_refl _, fun _ => rfl⟩
  | ok actual =>
    simp only []
    split
    · exact ⟨List.prefix_refl _, fun _ => rfl⟩
    · exact validateValues_failFast env v m ctx ctx' hN hF actual _ _ _

/-- With fail-fast on, the loop over the documents collects a prefix of what
it collects under any context of the same polarity. -/
theorem validateDocs_failFast (env : Env) (v : StringContainsValidator)
    (ctx ctx' : ValidateContext) (hN : ctx.Negative = ctx'.Negative)
    (hF : ctx.FailFast = true) :
    ∀ (rest : List K8sManifest) (k : Nat) (s : Bool) (errs : List String),
      (validateDocs env v ctx k rest s errs).2 <+: (validateDocs env v ctx' k rest s errs).2
  | [], _, _, errs => List.prefix_refl errs
  | d :: rest, k, s, errs => by
    rw [validateDocs, validateDocs]
    simp only [hF, Bool.and_true]
    have hv := validateManifest_fst_congr_ctx env v d k ctx ctx' hN
    have hp := validateManifest_failFast env v d k ctx ctx' hN hF
    rw [← hv]
    cases hs : determineSuccess k s (validateManifest env v d k ctx).1
    · simp only [Bool.not_false, if_true, Bool.true_and]
      split
      · exact (List.prefix_append_right_inj errs).2 hp.1
      · exact ((List.prefix_append_right_inj errs).2 hp.1).trans
          (validateDocs_snd_extends env v ctx' rest _ _ _)
    · simp only [Bool.not_true, Bool.false_eq_true, if_false, Bool.false_and]
      have hpass : (validateManifest env v d k ctx).1 = true := by
        unfold determineSuccess at hs
        split at hs
        · exact hs
        · exact (Bool.and_eq_true _ _ ▸ hs : _ ∧ _).2
      rw [← hp.2 hpass]
      exact validateDocs_failFast env v ctx ctx' hN hF rest _ _ _

/-- With fail-fast on, the loop over the documents stops after the first
failing document: the diagnostics are those of the documents up to and
including it. -/
theorem validateDocs_snd_first_failure (env : Env) (v : StringContainsValidator)
    (ctx : ValidateContext) (hF : ctx.FailFast = true) (d : K8sManifest)
    (post : List K8sManifest) (hd : (validateManifest env v d 0 ctx).1 = false) :
    ∀ (front : List K8sManifest) (k : Nat) (s : Bool) (errs : List String),
      (k = 0 ∨ s = true) →
      (∀ p ∈ front, (validateManifest env v p 0 ctx).1 = true) →
      (validateDocs env v ctx k (front ++ d :: post) s errs).2 =
        errs ++ ((List.enumFrom k (front ++ [d])).map
          (fun p => (validateManifest env v p.2 p.1 ctx).2)).flatten
  | [], k, s, errs, _, _ => by
    simp only [List.nil_append]
    rw [validateDocs]
    have hdk : (validateManifest env v d k ctx).1 = false := by
      rw [validateManifest_fst_index env v d k 0]
      exact hd
    have hs : determineSuccess k s (validateManifest env v d k ctx).1 = false := by
      rw [hdk]
      unfold determineSuccess
      split <;> simp
    simp [hs, hF]
  | p :: front, k, s, errs, hks, hfront => by
    simp only [List.cons_append]
    rw [validateDocs]
    have hpk : (validateManifest env v p k ctx).1 = true := by
      rw [validateManifest_fst_index env v p k 0]
      exact hfront p (List.mem_cons_self _ _)
    have hs : determineSuccess k s (validateManifest env v p k ctx).1 = true := by
      rw [hpk]
      unfold determineSuccess
      split
      · rfl
      · rename_i hk
        rcases hks with h | h
        · exact absurd h hk
        · simp [h]
    simp only [hs, Bool.not_true, Bool.false_and, Bool.false_eq_true, if_false]
    rw [validateDocs_snd_first_failure env v ctx hF d post hd front (k + 1) true _
      (Or.inr rfl) (fun q hq => hfront q (List.mem_cons_of_mem _ hq))]
    simp [List.enumFrom_cons, List.append_assoc]

/-- C10: for every configuration, negation flag and document list, the
diagnostics of `Validate` with fail-fast on are a prefix of its diagnostics
with fail-fast off; and when a document of the list fails while all documents
before it pass, the diagnostics with fail-fast on are those of the documents
up to and including that first failing document, so that no line comes from
a later document. -/
theorem Validate_diagnostics_failFast (env : Env) (v : StringContainsValidator)
    (docs : List K8sManifest) (negative : Bool) :
    (Validate env v ⟨docs, negative, true⟩).2 <+: (Validate env v ⟨docs, negative, false⟩).2 ∧
    ∀ (front : List K8sManifest) (d : K8sManifest) (post : List K8sManifest),
      docs = front ++ d :: post →
      (∀ p ∈ List.enumFrom 0 front,
        (validateManifest env v p.2 p.1 ⟨docs, negative, true⟩).1 = true) →
      (validateManifest env v d front.length ⟨docs, negative, true⟩).1 = false →
      (Validate env v ⟨docs, negative, true⟩).2 =
        ((List.enumFrom 0 (front ++ [d])).map
          (fun p => (validateManifest env v p.2 p.1 ⟨docs, negative, true⟩).2)).flatten := by
  constructor
  · unfold Validate ValidateContext.getManifests
    cases docs with
    | nil => cases negative <;> exact List.prefix_refl _
    | cons d rest =>
      simp only [List.length_cons, Nat.succ_ne_zero, decide_False, Bool.false_and,
        Bool.false_eq_true, if_false]
      exact validateDocs_failFast env v ⟨d :: rest, negative, true⟩
        ⟨d :: rest, negative, false⟩ rfl rfl (d :: rest) 0 false []
  · intro front d post hdocs hfront hd
    have hne : docs.length ≠ 0 := by
      rw [hdocs]
      simp
    have hV : Validate env v ⟨docs, negative, true⟩ =
        validateDocs env v ⟨docs, negative, true⟩ 0 docs false [] := by
      unfold Validate ValidateContext.getManifests
      simp [hne]
    rw [hV]
    have hd0 : (validateManifest env v d 0 ⟨docs, negative, true⟩).1 = false := by
      rw [validateManifest_fst_index env v d 0 front.length]
      exact hd
    have hfront0 : ∀ p ∈ front,
        (validateManifest env v p 0 ⟨docs, negative, true⟩).1 = true := by
      intro p hp
      rw [← List.enumFrom_map_snd 0 front] at hp
      obtain ⟨q, hq, rfl⟩ := List.mem_map.1 hp
      rw [validateManifest_fst_index env v q.2 0 q.1]
      exact hfront q hq
    have hloop := validateDocs_snd_first_failure env v ⟨docs, negative, true⟩ rfl d post hd0
      front 0 false [] (Or.inl rfl) hfront0
    rw [List.nil_append] at hloop
    rw [← hloop, hdocs]

/-! ## Instances on the test document -/

/-- Instance of C1: the sentence under `a.b` and the content `hello world`,
with negation. -/
theorem validateSingle_plain_verdict_witness :
    (helloWorldValidator.FromJson = false ∧ helloWorldValidator.FromYaml = false ∧
      helloWorldValidator.Content = .str "hello world") ∧
    (validateSingle sampleEnv helloWorldValidator "hello world foo bar" 0 0
        ⟨[docToTestStringContains], true, false⟩).1 =
      xor (if helloWorldValidator.IgnoreFormatting
            then decide ((normalizeWhitespace "hello world").data <:+:
              (normalizeWhitespace "hello world foo bar").data)
            else decide ("hello world".data <:+: "hello world foo bar".data)) true :=
  ⟨⟨rfl, rfl, rfl⟩,
    validateSingle_plain_verdict sampleEnv helloWorldValidator "hello world foo bar"
      "hello world" 0 0 ⟨[docToTestStringContains], true, false⟩ rfl rfl rfl⟩

/-- Instance of C2: the test document and the path `a.b`, with fail-fast. -/
theorem validateManifest_verdict_iff_all_witness :
    (sampleEnv.GetValueOfSetPath docToTestStringContains helloWorldValidator.Path =
        .ok [.str "hello world foo bar"]) ∧
    ((validateManifest sampleEnv helloWorldValidator docToTestStringContains 0
        ⟨[docToTestStringContains], false, true⟩).1 = true ↔
      ∀ (valuesIndex : Nat) (h : valuesIndex < [Value.str "hello world foo bar"].length),
        (validateSingle sampleEnv helloWorldValidator
          (actualText sampleEnv ([Value.str "hello world foo bar"].get ⟨valuesIndex, h⟩))
          (0 : Nat) valuesIndex ⟨[docToTestStringContains], false, true⟩).1 = true) :=
  ⟨rfl, validateManifest_verdict_iff_all sampleEnv helloWorldValidator docToTestStringContains
    0 ⟨[docToTestStringContains], false, true⟩ [.str "hello world foo bar"] rfl
    (List.cons_ne_nil _ _)⟩

/-- Instance of C3: the two documents of the multi-document test. -/
theorem Validate_verdict_iff_all_witness :
    (Validate sampleEnv helloWorldValidator ⟨[docToTestStringContains, extraDoc], false, false⟩).1
        = true ↔
      ∀ (manifestIndex : Nat) (h : manifestIndex < [docToTestStringContains, extraDoc].length),
        (validateManifest sampleEnv helloWorldValidator
          ([docToTestStringContains, extraDoc].get ⟨manifestIndex, h⟩) manifestIndex
          ⟨[docToTestStringContains, extraDoc], false, false⟩).1 = true :=
  Validate_verdict_iff_all sampleEnv helloWorldValidator
    ⟨[docToTestStringContains, extraDoc], false, false⟩ (List.cons_ne_nil _ _)

/-- Instance of C4: the decoded object under `a.d` contains its nested
mapping. -/
theorem containsMap_iff_witness :
    containsMap [("name", .str "test"), ("nested", .map [("value", .bool true)])]
        [("nested", .map [("value", .bool true)])] = true ∧
    ∀ k smallVal, (k, smallVal) ∈ [("nested", Value.map [("value", .bool true)])] →
      ∃ bigVal,
        List.lookup k [("name", Value.str "test"), ("nested", .map [("value", .bool true)])]
          = some bigVal ∧
        (∀ bm sm, bigVal = .map bm → smallVal = .map sm → containsMap bm sm = true) ∧
        ((¬ ∃ bm sm, bigVal = .map bm ∧ smallVal = .map sm) →
          deepEqual bigVal smallVal = true) :=
  ⟨by decide,
    (containsMap_iff [("name", .str "test"), ("nested", .map [("value", .bool true)])]
      [("nested", .map [("value", .bool true)])]).1 (by decide)⟩

/-- Instance of C5: the empty document list under both polarities. -/
theorem Validate_empty_docs_witness :
    (∃ front, Validate sampleEnv helloWorldValidator ⟨[], false, false⟩ =
        (false, front ++ ["\tno manifest found"])) ∧
    Validate sampleEnv helloWorldValidator ⟨[], true, false⟩ = (true, []) :=
  ⟨(Validate_empty_docs sampleEnv helloWorldValidator ⟨[], false, false⟩ rfl).1 rfl,
    (Validate_empty_docs sampleEnv helloWorldValidator ⟨[], true, false⟩ rfl).2 rfl⟩

/-- Instance of C6, amended: the path `a.nonexistent` on the test document. -/
theorem validateManifest_no_value_witness :
    sampleEnv.GetValueOfSetPath docToTestStringContains (plainValidator "a.nonexistent").Path
        = .ok [] ∧
    validateManifest sampleEnv (plainValidator "a.nonexistent") docToTestStringContains 0
        ⟨[docToTestStringContains], true, false⟩ = (true, []) ∧
    validateManifest sampleEnv (plainValidator "a.nonexistent") docToTestStringContains 0
        ⟨[docToTestStringContains], false, false⟩ =
      (false, ["DocumentIndex:\t0", "Error:", "\tunknown path a.nonexistent"]) :=
  ⟨rfl,
    (validateManifest_no_value sampleEnv (plainValidator "a.nonexistent")
      docToTestStringContains 0 ⟨[docToTestStringContains], true, false⟩ rfl).1 rfl,
    (validateManifest_no_value sampleEnv (plainValidator "a.nonexistent")
      docToTestStringContains 0 ⟨[docToTestStringContains], false, false⟩ rfl).2.2 rfl
      (by decide) ⟨'t', by decide, by decide⟩⟩

/-- C6, as stated, fails: the path made of `a.x`, a line feed and `y`
resolves on the test document to zero values without error, and the
diagnostics with negation off have four lines, the message being laid out on
two of them. -/
theorem validateManifest_no_value_multiline :
    sampleEnv.GetValueOfSetPath docToTestStringContains "a.x\ny" = .ok [] ∧
    validateManifest sampleEnv (plainValidator "a.x\ny") docToTestStringContains 0
        ⟨[docToTestStringContains], false, false⟩ ≠
      (false, ["DocumentIndex:\t0", "Error:", "\tunknown path a.x\ny"]) ∧
    validateManifest sampleEnv (plainValidator "a.x\ny") docToTestStringContains 0
        ⟨[docToTestStringContains], false, false⟩ =
      (false, ["DocumentIndex:\t0", "Error:", "\tunknown path a.x", "\ty"]) :=
  ⟨rfl, by decide, by decide⟩

/-- Instance of C7: the path `a..b` has an empty key, which the resolver
reports as an error. -/
theorem Validate_resolution_error_witness :
    sampleEnv.GetValueOfSetPath docToTestStringContains (plainValidator "a..b").Path
        = .error "invalid path: empty key" ∧
    (Validate sampleEnv (plainValidator "a..b")
        ⟨[extraDoc, docToTestStringContains], true, false⟩).1 = false ∧
    validateManifest sampleEnv (plainValidator "a..b") docToTestStringContains 1
        ⟨[extraDoc, docToTestStringContains], true, false⟩ =
      (false, ["DocumentIndex:\t1", "Error:", "\tinvalid path: empty key"]) :=
  ⟨rfl,
    (Validate_resolution_error sampleEnv (plainValidator "a..b")
      [extraDoc, docToTestStringContains] true false docToTestStringContains
      "invalid path: empty key" (by simp) rfl).1,
    ((Validate_resolution_error sampleEnv (plainValidator "a..b")
      [extraDoc, docToTestStringContains] true false docToTestStringContains
      "invalid path: empty key" (by simp) rfl).2 1).1⟩

/-- Instance of C8, amended: plain mode on the test document. -/
theorem Validate_negation_complement_witness :
    sampleEnv.GetValueOfSetPath docToTestStringContains helloWorldValidator.Path
        = .ok [.str "hello world foo bar"] ∧
    decodes sampleEnv helloWorldValidator
        (actualText sampleEnv (.str "hello world foo bar")) = true ∧
    ((Validate sampleEnv helloWorldValidator ⟨[docToTestStringContains], true, false⟩).1 = true ↔
      (Validate sampleEnv helloWorldValidator ⟨[docToTestStringContains], false, false⟩).1
        = false) :=
  ⟨rfl, rfl,
    (Validate_negation_complement sampleEnv helloWorldValidator docToTestStringContains
      (.str "hello world foo bar") false false rfl).1 rfl⟩

/-- Instance of C9: the two documents of the fail-fast test. -/
theorem Validate_verdict_failFast_witness :
    (Validate sampleEnv helloWorldValidator ⟨[extraDoc, docToTestStringContains], false, true⟩).1
      = (Validate sampleEnv helloWorldValidator
          ⟨[extraDoc, docToTestStringContains], false, false⟩).1 :=
  Validate_verdict_failFast sampleEnv helloWorldValidator [extraDoc, docToTestStringContains]
    false

/-- Instance of C10: the fail-fast test, whose first document fails. -/
theorem Validate_diagnostics_failFast_witness :
    (validateManifest sampleEnv helloWorldValidator extraDoc 0
        ⟨[extraDoc, docToTestStringContains], false, true⟩).1 = false ∧
    (Validate sampleEnv helloWorldValidator
        ⟨[extraDoc, docToTestStringContains], false, true⟩).2 =
      ((List.enumFrom 0 ([] ++ [extraDoc])).map
        (fun p => (validateManifest sampleEnv helloWorldValidator p.2 p.1
          ⟨[extraDoc, docToTestStringContains], false, true⟩).2)).flatten :=
  ⟨by decide,
    (Validate_diagnostics_failFast sampleEnv helloWorldValidator
      [extraDoc, docToTestStringContains] false).2 [] extraDoc [docToTestStringContains] rfl
      (fun p hp => absurd hp (List.not_mem_nil p)) (by decide)⟩

/-! ## The test-suite, replayed

The expected outputs of `string_contains_validator_test.go`, evaluated on the
embedding with the collaborators of the concrete environment. -/

/-- Test `TestStringContainsValidatorWhenOk`. -/
theorem replay_WhenOk :
    Validate sampleEnv helloWorldValidator ⟨[docToTestStringContains], false, false⟩
      = (true, []) := by
  decide

/-- Test `TestStringContainsValidatorWhenEmptyManifestFail`. -/
theorem replay_WhenEmptyManifestFail :
    Validate sampleEnv helloWorldValidator ⟨[], false, false⟩ =
      (false, ["DocumentIndex:\t0", "Path:\ta.b", "Expected to contain:", "\thello world",
        "Actual:", "\tno manifest found"]) := by
  decide

/-- Test `TestStringContainsValidatorWhenFail`. -/
theorem replay_WhenFail :
    Validate sampleEnv ⟨"a.b", .str "not present", false, false, false⟩
        ⟨[docToTestStringContains], false, false⟩ =
      (false, ["DocumentIndex:\t0", "ValuesIndex:\t0", "Path:\ta.b", "Expected to contain:",
        "\tnot present", "Actual:", "\thello world foo bar"]) := by
  decide

/-- Test `TestStringContainsValidatorWithIgnoreFormattingWhenOk`. -/
theorem replay_WithIgnoreFormattingWhenOk :
    Validate sampleEnv ⟨"a.c", .str "multi line string", true, false, false⟩
        ⟨[docToTestStringContains], false, false⟩ = (true, []) := by
  decide

/-- Test `TestStringContainsValidatorWithIgnoreFormattingWhenFail`. -/
theorem replay_WithIgnoreFormattingWhenFail :
    Validate sampleEnv ⟨"a.c", .str "not present", true, false, false⟩
        ⟨[docToTestStringContains], false, false⟩ =
      (false, ["DocumentIndex:\t0", "ValuesIndex:\t0", "Path:\ta.c", "Expected to contain:",
        "\tnot present", "Actual:", "\tmulti", "\tline", "\tstring"]) := by
  decide

/-- Test `TestStringContainsValidatorFromJsonNestedWhenOk`. -/
theorem replay_FromJsonNestedWhenOk :
    Validate sampleEnv ⟨"a.d", .map [("nested", .map [("value", .bool true)])], false, true, false⟩
        ⟨[docToTestStringContains], false, false⟩ = (true, []) := by
  decide

/-- Test `TestStringContainsValidatorFromJsonWhenFail`. -/
theorem replay_FromJsonWhenFail :
    Validate sampleEnv ⟨"a.d", .map [("notfound", .str "value")], false, true, false⟩
        ⟨[docToTestStringContains], false, false⟩ =
      (false, ["DocumentIndex:\t0", "ValuesIndex:\t0", "Path:\ta.d", "Expected to contain:",
        "\tnotfound: value", "Actual:",
        "\t\x7b\"name\":\"test\",\"nested\":\x7b\"value\":true\x7d\x7d"]) := by
  decide

/-- Test `TestStringContainsValidatorFromYamlWhenFail`. -/
theorem replay_FromYamlWhenFail :
    Validate sampleEnv ⟨"a.e", .map [("notfound", .str "value")], false, false, true⟩
        ⟨[docToTestStringContains], false, false⟩ =
      (false, ["DocumentIndex:\t0", "ValuesIndex:\t0", "Path:\ta.e", "Expected to contain:",
        "\tnotfound: value", "Actual:", "\tsome:", "\t  nested: yaml", "\t  format: true"]) := by
  decide

/-- Test `TestStringContainsValidatorMultiManifestWhenFail`. -/
theorem replay_MultiManifestWhenFail :
    Validate sampleEnv helloWorldValidator ⟨[docToTestStringContains, extraDoc], false, false⟩ =
      (false, ["DocumentIndex:\t1", "ValuesIndex:\t0", "Path:\ta.b", "Expected to contain:",
        "\thello world", "Actual:", "\tdifferent string"]) := by
  decide

/-- Test `TestStringContainsValidatorMultiManifestWhenFailFast`. -/
theorem replay_MultiManifestWhenFailFast :
    Validate sampleEnv helloWorldValidator ⟨[extraDoc, docToTestStringContains], false, true⟩ =
      (false, ["DocumentIndex:\t0", "ValuesIndex:\t0", "Path:\ta.b", "Expected to contain:",
        "\thello world", "Actual:", "\tdifferent string"]) := by
  decide

/-- Test `TestStringContainsValidatorWhenNegativeAndFail`. -/
theorem replay_WhenNegativeAndFail :
    Validate sampleEnv helloWorldValidator ⟨[docToTestStringContains], true, false⟩ =
      (false, ["DocumentIndex:\t0", "ValuesIndex:\t0", "Path:\ta.b",
        "Expected NOT to contain:", "\thello world", "Actual:", "\thello world foo bar"]) := by
  decide

/-- Test `TestStringContainsValidatorWhenInvalidPath`. -/
theorem replay_WhenInvalidPath :
    Validate sampleEnv (plainValidator "a.nonexistent")
        ⟨[docToTestStringContains], false, false⟩ =
      (false, ["DocumentIndex:\t0", "Error:", "\tunknown path a.nonexistent"]) := by
  decide

/-- Test `TestStringContainsValidatorWhenUnknownPathNegative`. -/
theorem replay_WhenUnknownPathNegative :
    Validate sampleEnv (plainValidator "a.nonexistent")
        ⟨[docToTestStringContains], true, false⟩ = (true, []) := by
  decide

/-! ## A value contains its own text -/

/-- A text occurs in itself. -/
theorem stringsContains_self (s : String) : stringsContains s s = true := by
  unfold stringsContains
  exact decide_eq_true (List.infix_refl _)

/-- C11: when the path of a document resolves to exactly one value `V`, a
validator in plain mode, with `IgnoreFormatting` on or off, whose content is
the text of `V` (given as that text, or as `V` itself) passes `Validate`
without negation and returns no diagnostics. -/
theorem Validate_own_text (env : Env) (v : StringContainsValidator) (doc : K8sManifest)
    (V : Value) (failFast : Bool)
    (hj : v.FromJson = false) (hy : v.FromYaml = false)
    (hres : env.GetValueOfSetPath doc v.Path = .ok [V])
    (hc : v.Content = .str (actualText env V) ∨ v.Content = V) :
    Validate env v ⟨[doc], false, failFast⟩ = (true, []) := by
  have htext : (match v.Content with
      | .str str => str
      | content => env.TrustedMarshalYAML content) = actualText env V := by
    rcases hc with h | h
    · rw [h]
    · rw [h]
      rfl
  have hsingle : validateSingle env v (actualText env V) 0 0
      ⟨[doc], false, failFast⟩ = (true, []) := by
    unfold validateSingle
    simp only [hj, hy, Bool.false_eq_true, if_false]
    rw [htext]
    cases v.IgnoreFormatting <;> simp [stringsContains_self]
  simp [Validate, ValidateContext.getManifests, validateDocs, validateManifest, hres,
    validateValues, hsingle, determineSuccess]

/-! ## Keys that the subset does not mention -/

/-- Setting a key leaves the value under every other key as it was. -/
theorem lookup_setKey_of_ne (m : GoMap) (k k' : String) (v : Value) (h : k' ≠ k) :
    (setKey m k v).lookup k' = m.lookup k' := by
  unfold setKey
  rw [List.lookup_cons]
  have hkk : (k' == k) = false := by simpa using h
  rw [hkk]
  induction m with
  | nil => rfl
  | cons p rest ih =>
    obtain ⟨pk, pv⟩ := p
    rw [List.filter_cons]
    by_cases hp : pk = k
    · subst hp
      have hne : (k' == pk) = false := by simpa using h
      simp only [bne_self_eq_false, Bool.false_eq_true, if_false, List.lookup_cons, hne]
      exact ih
    · have hbne : (pk != k) = true := by simpa using hp
      simp only [hbne, if_true, List.lookup_cons]
      cases k' == pk
      · exact ih
      · rfl

/-- C14: for all mappings `big` and `small`, every key `k` that is not a key
of `small` and every value `v`, `containsMap` of `big` with `k` set to `v`
equals `containsMap` of `big`. -/
theorem containsMap_setKey (bigMap smallMap : GoMap) (k : String) (v : Value)
    (hk : k ∉ smallMap.map Prod.fst) :
    containsMap (setKey bigMap k v) smallMap = containsMap bigMap smallMap := by
  induction smallMap with
  | nil => simp [containsMap]
  | cons p rest ih =>
    obtain ⟨pk, pv⟩ := p
    simp only [List.map_cons, List.mem_cons, not_or] at hk
    rw [containsMap, containsMap, ih hk.2, lookup_setKey_of_ne bigMap k pk v (Ne.symm hk.1)]

/-! ## Whitespace folding -/

/-- Folding a folded text changes nothing, whether or not a run is open. -/
theorem collapseSpace_idem : ∀ (l : List Char) (inRun : Bool),
    collapseSpace inRun (collapseSpace inRun l) = collapseSpace inRun l
  | [], _ => rfl
  | c :: cs, inRun => by
    by_cases hc : isSpace c = true
    · cases inRun
      · have hsp : isSpace ' ' = true := by decide
        simp only [collapseSpace, hc, if_true, Bool.false_eq_true, if_false, hsp]
        rw [collapseSpace_idem cs true]
      · simp only [collapseSpace, hc, if_true]
        exact collapseSpace_idem cs true
    · have hc' : isSpace c = false := by simpa using hc
      simp only [collapseSpace, hc', Bool.false_eq_true, if_false]
      rw [collapseSpace_idem cs false]

/-- An open run swallows the whitespace that follows. -/
theorem collapseSpace_true_eq (l : List Char) :
    collapseSpace true l = collapseSpace false (l.dropWhile isSpace) := by
  induction l with
  | nil => rfl
  | cons c cs ih =>
    by_cases hc : isSpace c = true
    · simp only [collapseSpace, hc, if_true, List.dropWhile_cons]
      exact ih
    · simp only [collapseSpace, hc, if_false, List.dropWhile_cons, Bool.false_eq_true]

/-- The folding replaces a whitespace character together with the whitespace
that follows it by one space, and keeps every other character. -/
theorem collapseSpace_cons (c : Char) (cs : List Char) :
    collapseSpace false (c :: cs) =
      if isSpace c then ' ' :: collapseSpace false (cs.dropWhile isSpace)
      else c :: collapseSpace false cs := by
  by_cases hc : isSpace c = true
  · simp only [collapseSpace, hc, if_true, Bool.false_eq_true, if_false, collapseSpace_true_eq]
  · have hc' : isSpace c = false := by simpa using hc
    simp only [collapseSpace, hc', Bool.false_eq_true, if_false]

/-- C15: for every string `s`, `normalizeWhitespace(normalizeWhitespace(s))`
equals `normalizeWhitespace(s)`, where `normalizeWhitespace` replaces every
maximal run of whitespace characters by a single space: a whitespace character
and the whitespace after it become one space, other characters are kept. -/
theorem normalizeWhitespace_idem (s : String) :
    normalizeWhitespace (normalizeWhitespace s) = normalizeWhitespace s ∧
    (normalizeWhitespace "").data = [] ∧
    ∀ (c : Char) (cs : List Char),
      (normalizeWhitespace (String.mk (c :: cs))).data =
        if isSpace c then ' ' :: (normalizeWhitespace (String.mk (cs.dropWhile isSpace))).data
        else c :: (normalizeWhitespace (String.mk cs)).data := by
  refine ⟨?_, rfl, fun c cs => ?_⟩
  · unfold normalizeWhitespace
    simp only []
    rw [collapseSpace_idem]
  · unfold normalizeWhitespace
    simp only []
    exact collapseSpace_cons c cs

/-! ## Induction over nested values -/

/-- Induction over values: a property holds of every value when it holds of
the scalars, of a slice whose elements have it and of a map whose values have
it. -/
theorem Value.induct {P : Value → Prop} (hnull : P .null) (hbool : ∀ b, P (.bool b))
    (hint : ∀ i, P (.int i)) (hfloat : ∀ f, P (.float f)) (hstr : ∀ s, P (.str s))
    (hseq : ∀ xs, (∀ x ∈ xs, P x) → P (.seq xs))
    (hmap : ∀ kvs : List (String × Value), (∀ p ∈ kvs, P p.2) → P (.map kvs)) :
    ∀ v, P v := by
  intro v
  refine Value.rec (motive_1 := P) (motive_2 := fun xs => ∀ x ∈ xs, P x)
    (motive_3 := fun kvs => ∀ p ∈ kvs, P p.2) (motive_4 := fun p => P p.2)
    hnull hbool hint hfloat hstr hseq hmap ?_ ?_ ?_ ?_ ?_ v
  · intro x hx
    exact absurd hx (List.not_mem_nil x)
  · intro head tail hh ht x hx
    rcases List.mem_cons.1 hx with h | h
    · rw [h]
      exact hh
    · exact ht x h
  · intro p hp
    exact absurd hp (List.not_mem_nil p)
  · intro head tail hh ht p hp
    rcases List.mem_cons.1 hp with h | h
    · rw [h]
      exact hh
    · exact ht p h
  · intro k val hval
    exact hval

/-! ## Deep equality -/

/-- The entries of the first map are matched in the second. -/
theorem deepEqualEntries_iff (m2 : GoMap) :
    ∀ m1 : GoMap, deepEqualEntries m1 m2 = true ↔
      ∀ k v1, (k, v1) ∈ m1 → ∃ v2, m2.lookup k = some v2 ∧ deepEqual v1 v2 = true
  | [] => by simp [deepEqualEntries]
  | (k, v1) :: rest => by
    rw [deepEqualEntries, Bool.and_eq_true, deepEqualEntries_iff m2 rest]
    constructor
    · rintro ⟨h1, h2⟩ k' v' hmem
      rcases List.mem_cons.1 hmem with heq | hmem'
      · cases heq
        cases hl : List.lookup k m2 with
        | none => rw [hl] at h1; exact absurd h1 (by simp)
        | some v2 => rw [hl] at h1; exact ⟨v2, rfl, h1⟩
      · exact h2 k' v' hmem'
    · intro h
      refine ⟨?_, fun k' v' hmem => h k' v' (List.mem_cons_of_mem _ hmem)⟩
      obtain ⟨v2, hl, hd⟩ := h k v1 (List.mem_cons_self _ _)
      rw [hl]
      exact hd

/-- A value found under a key is the value of an entry. -/
theorem mem_of_lookup_eq_some {k : String} {v : Value} :
    ∀ {m : GoMap}, m.lookup k = some v → (k, v) ∈ m
  | [], h => by simp at h
  | (k', v') :: rest, h => by
    rw [List.lookup_cons] at h
    cases hk : k == k' with
    | true =>
      rw [hk] at h
      have hkk : k = k' := by simpa using hk
      cases h
      rw [hkk]
      exact List.mem_cons_self _ _
    | false =>
      rw [hk] at h
      exact List.mem_cons_of_mem _ (mem_of_lookup_eq_some h)

/-- Under distinct keys the value of an entry is the value found under its
key. -/
theorem lookup_of_mem_nodup {k : String} {v : Value} :
    ∀ {m : GoMap}, (m.map Prod.fst).Nodup → (k, v) ∈ m → m.lookup k = some v
  | [], _, h => absurd h (List.not_mem_nil _)
  | (k', v') :: rest, hnd, h => by
    rw [List.map_cons, List.nodup_cons] at hnd
    rw [List.lookup_cons]
    rcases List.mem_cons.1 h with heq | hmem
    · cases heq
      simp
    · have hne : k ≠ k' := by
        intro e
        apply hnd.1
        rw [← e]
        exact List.mem_map.2 ⟨(k, v), hmem, rfl⟩
      have hk : (k == k') = false := by simpa using hne
      rw [hk]
      exact lookup_of_mem_nodup hnd.2 hmem

/-- Go equality of floats is transitive. -/
theorem GoFloat.eq_trans (a b c : GoFloat) (h1 : GoFloat.eq a b = true)
    (h2 : GoFloat.eq b c = true) : GoFloat.eq a c = true := by
  cases a <;> cases b <;> cases c <;> simp_all [GoFloat.eq]

/-- A mapping is deep-equal to mappings only, on the left as well. -/
theorem deepEqual_map_left (sm : GoMap) (other : Value)
    (h : deepEqual (.map sm) other = true) : ∃ om, other = .map om := by
  cases other with
  | map om => exact ⟨om, rfl⟩
  | null => simp [deepEqual] at h
  | bool b => simp [deepEqual] at h
  | int i => simp [deepEqual] at h
  | float f => simp [deepEqual] at h
  | str s => simp [deepEqual] at h
  | seq xs => simp [deepEqual] at h

/-- Elementwise deep equality is transitive when the elements of the first
slice compare transitively. -/
theorem deepEqualSeq_trans :
    ∀ (xs ys zs : List Value),
      (∀ x ∈ xs, ∀ b c, deepEqual x b = true → deepEqual b c = true → deepEqual x c = true) →
      deepEqualSeq xs ys = true → deepEqualSeq ys zs = true → deepEqualSeq xs zs = true
  | [], [], [], _, _, _ => by simp [deepEqualSeq]
  | [], [], _ :: _, _, _, h2 => by simp [deepEqualSeq] at h2
  | [], _ :: _, _, _, h1, _ => by simp [deepEqualSeq] at h1
  | _ :: _, [], _, _, h1, _ => by simp [deepEqualSeq] at h1
  | _ :: _, _ :: _, [], _, _, h2 => by simp [deepEqualSeq] at h2
  | x :: xs, y :: ys, z :: zs, ih, h1, h2 => by
    rw [deepEqualSeq, Bool.and_eq_true] at h1 h2 ⊢
    exact ⟨ih x (List.mem_cons_self _ _) y z h1.1 h2.1,
      deepEqualSeq_trans xs ys zs (fun x' hx' => ih x' (List.mem_cons_of_mem _ hx')) h1.2 h2.2⟩

/-- Deep equality is transitive. -/
theorem deepEqual_trans : ∀ (a b c : Value),
    deepEqual a b = true → deepEqual b c = true → deepEqual a c = true := by
  intro a
  induction a using Value.induct with
  | hnull => intro b c h1 h2; cases b <;> cases c <;> simp_all [deepEqual]
  | hbool x => intro b c h1 h2; cases b <;> cases c <;> simp_all [deepEqual]
  | hint x => intro b c h1 h2; cases b <;> cases c <;> simp_all [deepEqual]
  | hfloat x =>
    intro b c h1 h2
    cases b <;> cases c <;> simp_all [deepEqual]
    exact GoFloat.eq_trans _ _ _ h1 h2
  | hstr x => intro b c h1 h2; cases b <;> cases c <;> simp_all [deepEqual]
  | hseq xs ih =>
    intro b c h1 h2
    obtain ⟨ys, rfl⟩ : ∃ ys, b = .seq ys := by
      cases b <;> simp [deepEqual] at h1
      exact ⟨_, rfl⟩
    obtain ⟨zs, rfl⟩ : ∃ zs, c = .seq zs := by
      cases c <;> simp [deepEqual] at h2
      exact ⟨_, rfl⟩
    rw [deepEqual] at h1 h2 ⊢
    exact deepEqualSeq_trans xs ys zs ih h1 h2
  | hmap m1 ih =>
    intro b c h1 h2
    obtain ⟨m2, rfl⟩ := deepEqual_map_left m1 b h1
    obtain ⟨m3, rfl⟩ := deepEqual_map_left m2 c h2
    rw [deepEqual, Bool.and_eq_true] at h1 h2 ⊢
    refine ⟨?_, ?_⟩
    · have e1 : m1.length = m2.length := by simpa using h1.1
      have e2 : m2.length = m3.length := by simpa using h2.1
      simp [e1, e2]
    · rw [deepEqualEntries_iff] at h1 h2 ⊢
      intro k v1 hmem
      obtain ⟨v2, hl2, hd2⟩ := h1.2 k v1 hmem
      obtain ⟨v3, hl3, hd3⟩ := h2.2 k v2 (mem_of_lookup_eq_some hl2)
      exact ⟨v3, hl3, ih (k, v1) hmem v2 v3 hd2 hd3⟩

/-! ## Containment is transitive -/

/-- The body of the loop of `containsMap` composes when the last value is not
a mapping: all three comparisons are deep equalities. -/
theorem containsEntry_trans_of_not_map (cv : Value) (hcv : ∀ m, cv ≠ .map m)
    (av bv : Value) (h1 : containsEntry av bv = true) (h2 : containsEntry bv cv = true) :
    containsEntry av cv = true := by
  rw [containsEntry_iff] at h1 h2 ⊢
  have hbc : deepEqual bv cv = true := h2.2 (fun ⟨_, sm, _, e⟩ => hcv sm e)
  have hb : ∀ m, bv ≠ .map m := by
    intro m e
    rw [e] at hbc
    obtain ⟨om, ho⟩ := deepEqual_map_left m cv hbc
    exact hcv om ho
  have hab : deepEqual av bv = true := h1.2 (fun ⟨_, sm, _, e⟩ => hb sm e)
  exact ⟨fun _ sm _ e => absurd e (hcv sm), fun _ => deepEqual_trans av bv cv hab hbc⟩

/-- The body of the loop of `containsMap` composes. -/
theorem containsEntry_trans : ∀ (cv av bv : Value),
    containsEntry av bv = true → containsEntry bv cv = true → containsEntry av cv = true := by
  intro cv
  induction cv using Value.induct with
  | hmap cm ih =>
    intro av bv h1 h2
    rw [containsEntry_iff] at h1 h2
    obtain ⟨bm, rfl⟩ : ∃ bm, bv = .map bm := by
      by_cases hb : ∃ bm, bv = .map bm
      · exact hb
      · exact deepEqual_map_right bv cm
          (h2.2 (fun ⟨bm, sm, e, _⟩ => hb ⟨bm, e⟩))
    obtain ⟨am, rfl⟩ : ∃ am, av = .map am := by
      by_cases ha : ∃ am, av = .map am
      · exact ha
      · exact deepEqual_map_right av bm
          (h1.2 (fun ⟨am, sm, e, _⟩ => ha ⟨am, e⟩))
    have hab := h1.1 am bm rfl rfl
    have hbc := h2.1 bm cm rfl rfl
    rw [containsEntry]
    rw [containsMap_iff_entries] at hab hbc ⊢
    intro k cval hmem
    obtain ⟨bval, hlb, hcb⟩ := hbc k cval hmem
    obtain ⟨aval, hla, hca⟩ := hab k bval (mem_of_lookup_eq_some hlb)
    exact ⟨aval, hla, ih (k, cval) hmem aval bval hca hcb⟩
  | hnull => exact containsEntry_trans_of_not_map _ (fun m e => by cases e)
  | hbool x => exact containsEntry_trans_of_not_map _ (fun m e => by cases e)
  | hint x => exact containsEntry_trans_of_not_map _ (fun m e => by cases e)
  | hfloat x => exact containsEntry_trans_of_not_map _ (fun m e => by cases e)
  | hstr x => exact containsEntry_trans_of_not_map _ (fun m e => by cases e)
  | hseq xs _ => exact containsEntry_trans_of_not_map _ (fun m e => by cases e)

/-- C12: for all mappings `A`, `B` and `C`, if `containsMap(A, B)` is true and
`containsMap(B, C)` is true then `containsMap(A, C)` is true. -/
theorem containsMap_trans (A B C : GoMap) (hab : containsMap A B = true)
    (hbc : containsMap B C = true) : containsMap A C = true := by
  rw [containsMap_iff_entries] at hab hbc ⊢
  intro k cval hmem
  obtain ⟨bval, hlb, hcb⟩ := hbc k cval hmem
  obtain ⟨aval, hla, hca⟩ := hab k bval (mem_of_lookup_eq_some hlb)
  exact ⟨aval, hla, containsEntry_trans cval aval bval hca hcb⟩

/-! ## Containment is reflexive on values without NaN -/

theorem distinctKeysSeq_iff : ∀ xs : List Value,
    distinctKeysSeq xs = true ↔ ∀ x ∈ xs, distinctKeys x = true
  | [] => by simp [distinctKeysSeq]
  | x :: xs => by simp [distinctKeysSeq, distinctKeysSeq_iff xs]

theorem distinctKeysEntries_iff : ∀ kvs : List (String × Value),
    distinctKeysEntries kvs = true ↔ ∀ p ∈ kvs, distinctKeys p.2 = true
  | [] => by simp [distinctKeysEntries]
  | (k, v) :: rest => by simp [distinctKeysEntries, distinctKeysEntries_iff rest]

theorem noNaNSeq_iff : ∀ xs : List Value, noNaNSeq xs = true ↔ ∀ x ∈ xs, noNaN x = true
  | [] => by simp [noNaNSeq]
  | x :: xs => by simp [noNaNSeq, noNaNSeq_iff xs]

theorem noNaNEntries_iff : ∀ kvs : List (String × Value),
    noNaNEntries kvs = true ↔ ∀ p ∈ kvs, noNaN p.2 = true
  | [] => by simp [noNaNEntries]
  | (k, v) :: rest => by simp [noNaNEntries, noNaNEntries_iff rest]

/-- A slice is elementwise deep-equal to itself when its elements are. -/
theorem deepEqualSeq_self : ∀ xs : List Value,
    (∀ x ∈ xs, deepEqual x x = true) → deepEqualSeq xs xs = true
  | [], _ => by simp [deepEqualSeq]
  | x :: xs, h => by
    rw [deepEqualSeq, Bool.and_eq_true]
    exact ⟨h x (List.mem_cons_self _ _),
      deepEqualSeq_self xs (fun y hy => h y (List.mem_cons_of_mem _ hy))⟩

/-- A value with distinct keys and without NaN is deep-equal to itself and
passes the body of the loop of `containsMap` against itself. -/
theorem deepEqual_self : ∀ v : Value, distinctKeys v = true → noNaN v = true →
    deepEqual v v = true ∧ containsEntry v v = true := by
  intro v
  induction v using Value.induct with
  | hnull => intro _ _; simp [deepEqual, containsEntry]
  | hbool x => intro _ _; simp [deepEqual, containsEntry]
  | hint x => intro _ _; simp [deepEqual, containsEntry]
  | hfloat x =>
    intro _ hn
    have hx : GoFloat.eq x x = true := by
      cases x <;> simp_all [noNaN, GoFloat.eq]
    simp [deepEqual, containsEntry, hx]
  | hstr x => intro _ _; simp [deepEqual, containsEntry]
  | hseq xs ih =>
    intro hk hn
    rw [distinctKeys, distinctKeysSeq_iff] at hk
    rw [noNaN, noNaNSeq_iff] at hn
    have hd : deepEqual (.seq xs) (.seq xs) = true := by
      rw [deepEqual]
      exact deepEqualSeq_self xs (fun x hx => (ih x hx (hk x hx) (hn x hx)).1)
    refine ⟨hd, ?_⟩
    rw [containsEntry_iff]
    exact ⟨fun _ _ e => (by cases e), fun _ => hd⟩
  | hmap m ih =>
    intro hk hn
    rw [distinctKeys, Bool.and_eq_true, distinctKeysEntries_iff] at hk
    rw [noNaN, noNaNEntries_iff] at hn
    have hnd : (m.map Prod.fst).Nodup := of_decide_eq_true hk.1
    constructor
    · rw [deepEqual, Bool.and_eq_true, deepEqualEntries_iff]
      refine ⟨by simp, ?_⟩
      intro k v1 hmem
      exact ⟨v1, lookup_of_mem_nodup hnd hmem,
        (ih (k, v1) hmem (hk.2 (k, v1) hmem) (hn (k, v1) hmem)).1⟩
    · rw [containsEntry, containsMap_iff_entries]
      intro k v1 hmem
      exact ⟨v1, lookup_of_mem_nodup hnd hmem,
        (ih (k, v1) hmem (hk.2 (k, v1) hmem) (hn (k, v1) hmem)).2⟩

/-- C13, amended: for every mapping `X`, with arbitrarily nested mappings,
sequences and scalars as values, that holds no NaN float at any depth,
`containsMap(X, X)` is true. The keys of a Go map are distinct, which is asked
of the list that stands for `X`. -/
theorem containsMap_self (X : GoMap) (hkeys : distinctKeys (.map X) = true)
    (hnan : noNaN (.map X) = true) : containsMap X X = true := by
  have h := (deepEqual_self (.map X) hkeys hnan).2
  rw [containsEntry] at h
  exact h

/-- C13, as stated, fails: the mapping with the one entry `a: NaN`, which the
YAML text `a: .nan` decodes to, does not contain itself, since a NaN is not
equal to itself. -/
theorem containsMap_self_fails_on_NaN :
    distinctKeys (.map [("a", .float .nan)]) = true ∧
      containsMap [("a", .float .nan)] [("a", .float .nan)] = false := by
  decide

/-! ## The layout of the diagnostic blocks -/

/-- Dropping from the left stops at the latest where a kept character
begins the second part. -/
theorem dropWhile_append_keeps (f : Char → Bool) (d : Char) (y : List Char)
    (hd : f d = false) :
    ∀ x : List Char, ∃ x', (x ++ d :: y).dropWhile f = x' ++ d :: y
  | [] => ⟨[], by simp [List.dropWhile_cons, hd]⟩
  | a :: x => by
    rw [List.cons_append, List.dropWhile_cons]
    by_cases ha : f a = true
    · rw [if_pos ha]
      exact dropWhile_append_keeps f d y hd x
    · rw [if_neg ha]
      exact ⟨a :: x, rfl⟩

/-- Trimming keeps a beginning that starts and ends outside the cutset. -/
theorem trimCutset_keeps (c d : Char) (mid q : List Char) (hc : isCutset c = false)
    (hd : isCutset d = false) :
    ∃ q', trimCutset ((c :: (mid ++ [d])) ++ q) = (c :: (mid ++ [d])) ++ q' := by
  unfold trimCutset
  rw [List.cons_append, List.dropWhile_cons, hc]
  simp only [Bool.false_eq_true, if_false]
  have hr : (c :: (mid ++ [d] ++ q)).reverse = q.reverse ++ d :: (c :: mid).reverse := by
    simp
  rw [hr]
  obtain ⟨x', hx'⟩ := dropWhile_append_keeps isCutset d (c :: mid).reverse hd q.reverse
  rw [hx']
  exact ⟨x'.reverse, by simp⟩

/-- The first line of a text begins with any beginning of the text that has
no line feed. -/
theorem splitLines_append_of_not_mem (q : List Char) :
    ∀ p : List Char, '\n' ∉ p →
      ∃ l ls, splitLines q = l :: ls ∧ splitLines (p ++ q) = (p ++ l) :: ls
  | [], _ => by
    cases h : splitLines q with
    | nil => exact absurd h (splitLines_ne_nil q)
    | cons l ls => exact ⟨l, ls, rfl, by simpa using h⟩
  | c :: p, hp => by
    have hc : c ≠ '\n' := fun e => hp (by simp [e])
    have hp' : '\n' ∉ p := fun e => hp (List.mem_cons_of_mem _ e)
    obtain ⟨l, ls, hq, hpq⟩ := splitLines_append_of_not_mem q p hp'
    refine ⟨l, ls, hq, ?_⟩
    rw [List.cons_append, splitLines, if_neg hc, hpq]
    rfl

/-- The first line of an indented replacement: a tab, then any beginning of
the text that starts and ends outside the cutset and has no line feed. -/
theorem indentReplacement_begins (r : String) (c d : Char) (mid q : List Char)
    (hr : r.data = (c :: (mid ++ [d])) ++ q) (hc : isCutset c = false)
    (hd : isCutset d = false) (hnl : '\n' ∉ c :: (mid ++ [d])) :
    ∃ l rest, indentReplacement r = String.mk ('\t' :: ((c :: (mid ++ [d])) ++ l)) :: rest := by
  unfold indentReplacement
  rw [hr]
  obtain ⟨q', hq'⟩ := trimCutset_keeps c d mid q hc hd
  rw [hq']
  obtain ⟨l, ls, _, hpq⟩ := splitLines_append_of_not_mem q' (c :: (mid ++ [d])) hnl
  rw [hpq]
  exact ⟨l, _, rfl⟩

/-- Two strings with different first characters differ. -/
theorem String.ne_of_head (a b : String) (h : a.data.head? ≠ b.data.head?) : a ≠ b := by
  intro e
  rw [e] at h
  exact h rfl

/-- A diagnostic is never empty when its format has a line. -/
theorem fillFormat_ne_nil : ∀ (format : List FormatLine) (rs : List String),
    format ≠ [] → fillFormat format rs ≠ []
  | [], _, h => absurd rfl h
  | ⟨t, false⟩ :: fs, rs, _ => by simp [fillFormat]
  | ⟨t, true⟩ :: fs, [], _ => by simp [fillFormat]
  | ⟨t, true⟩ :: fs, r :: rs, _ => by
    rw [fillFormat]
    cases h : indentReplacement r with
    | nil => exact absurd h (indentReplacement_ne_nil r)
    | cons l ls => simp [continueLabel]

theorem splitInfof_ne_nil (format : List FormatLine) (m i : Int) (rs : List String)
    (h : format ≠ []) : splitInfof format m i rs ≠ [] := by
  unfold splitInfof
  intro e
  exact fillFormat_ne_nil format rs h (List.append_eq_nil.1 e).2

/-- The error block of a value: the two indices, the line `Error:`, the
indented message. -/
theorem splitInfof_error_value (m i : Nat) (msg : String) :
    splitInfof errorFormat m i [msg] =
      ("DocumentIndex:\t" ++ toString m) :: ("ValuesIndex:\t" ++ toString i) :: "Error:" ::
        indentReplacement msg := by
  simp [splitInfof, errorFormat, fillFormat, continueLabel_empty]
  exact ⟨rfl, rfl⟩

/-- The expected/actual block of a value, line by line. -/
theorem failInfo_value (env : Env) (v : StringContainsValidator) (a : String) (m i : Nat)
    (negative : Bool) :
    failInfo env v (.str a) m i negative =
      ["DocumentIndex:\t" ++ toString m, "ValuesIndex:\t" ++ toString i] ++
        continueLabel "Path:" (indentReplacement v.Path) ++
        [if negative then "Expected NOT to contain:" else "Expected to contain:"] ++
        indentReplacement (expectedText env v) ++ ["Actual:"] ++ indentReplacement a := by
  have hheader : ("Expected" ++ (if negative = true then " NOT" else "") ++ " to contain" ++ ":") =
      (if negative then "Expected NOT to contain:" else "Expected to contain:") := by
    cases negative <;> decide
  simp only [failInfo, splitInfof, setFailFormat, fillFormat, continueLabel_empty, if_true,
    Bool.false_eq_true, if_false, List.append_nil, List.cons_append, List.nil_append,
    List.append_assoc, hheader, Int.natCast_nonneg, expectedText]
  rfl

/-- An error of the conversion of the content is an error block. -/
theorem contentToMap_error_form (env : Env) (v : StringContainsValidator) (m i : Int)
    (e : List String) (h : contentToMap env v m i = .error e) :
    ∃ msg, e = splitInfof errorFormat m i [msg] := by
  unfold contentToMap at h
  generalize env.yamlUnmarshal (env.TrustedMarshalYAML v.Content) = r at h
  cases hc : v.Content with
  | map kvs => rw [hc] at h; cases h
  | str c =>
    rw [hc] at h
    simp only [] at h
    cases hu : env.yamlUnmarshal c with
    | error err => rw [hu] at h; cases h; exact ⟨_, rfl⟩
    | ok cm => rw [hu] at h; cases h
  | null => rw [hc] at h; cases r <;> cases h; exact ⟨_, rfl⟩
  | bool b => rw [hc] at h; cases r <;> cases h; exact ⟨_, rfl⟩
  | int n => rw [hc] at h; cases r <;> cases h; exact ⟨_, rfl⟩
  | float f => rw [hc] at h; cases r <;> cases h; exact ⟨_, rfl⟩
  | seq xs => rw [hc] at h; cases r <;> cases h; exact ⟨_, rfl⟩

/-- The two outcomes of a comparison with the negation flag. -/
theorem verdict_cases (c : Bool) (x : List String) :
    (if c = true then (false, x) else ((true, []) : Bool × List String)) = (true, []) ∨
    (if c = true then (false, x) else ((true, []) : Bool × List String)) = (false, x) := by
  cases c
  · exact Or.inl rfl
  · exact Or.inr rfl

/-- A failing comparison with the negation flag carries its block. -/
theorem verdict_false (c : Bool) (x : List String)
    (h : (if c = true then (false, x) else ((true, []) : Bool × List String)).1 = false) :
    (if c = true then (false, x) else ((true, []) : Bool × List String)) = (false, x) := by
  cases c
  · simp at h
  · rfl

/-- The three outcomes of `validateJSON`. -/
theorem validateJSON_cases (env : Env) (v : StringContainsValidator) (a : String)
    (m i : Int) (ctx : ValidateContext) :
    validateJSON env v a m i ctx = (true, []) ∨
    validateJSON env v a m i ctx = (false, failInfo env v (.str a) m i ctx.Negative) ∨
    ∃ msg, validateJSON env v a m i ctx = (false, splitInfof errorFormat m i [msg]) := by
  unfold validateJSON
  cases env.jsonUnmarshal a with
  | error err => exact Or.inr (Or.inr ⟨_, rfl⟩)
  | ok obj =>
    cases hcm : contentToMap env v m i with
    | error e =>
      obtain ⟨msg, rfl⟩ := contentToMap_error_form env v m i e hcm
      exact Or.inr (Or.inr ⟨msg, rfl⟩)
    | ok cm =>
      simp only []
      split
      · exact Or.inr (Or.inl rfl)
      · exact Or.inl rfl

/-- The three outcomes of `validateYAML`. -/
theorem validateYAML_cases (env : Env) (v : StringContainsValidator) (a : String)
    (m i : Int) (ctx : ValidateContext) :
    validateYAML env v a m i ctx = (true, []) ∨
    validateYAML env v a m i ctx = (false, failInfo env v (.str a) m i ctx.Negative) ∨
    ∃ msg, validateYAML env v a m i ctx = (false, splitInfof errorFormat m i [msg]) := by
  unfold validateYAML
  cases env.yamlUnmarshal a with
  | error err => exact Or.inr (Or.inr ⟨_, rfl⟩)
  | ok obj =>
    cases hcm : contentToMap env v m i with
    | error e =>
      obtain ⟨msg, rfl⟩ := contentToMap_error_form env v m i e hcm
      exact Or.inr (Or.inr ⟨msg, rfl⟩)
    | ok cm =>
      simp only []
      split
      · exact Or.inr (Or.inl rfl)
      · exact Or.inl rfl

/-- The three outcomes of `validateSingle`: a pass without diagnostics, a
content mismatch with its expected/actual block, a decoding error with its
error block. -/
theorem validateSingle_cases (env : Env) (v : StringContainsValidator) (a : String)
    (m i : Int) (ctx : ValidateContext) :
    validateSingle env v a m i ctx = (true, []) ∨
    validateSingle env v a m i ctx = (false, failInfo env v (.str a) m i ctx.Negative) ∨
    ∃ msg, validateSingle env v a m i ctx = (false, splitInfof errorFormat m i [msg]) := by
  unfold validateSingle
  split
  · exact validateJSON_cases env v a m i ctx
  · split
    · exact validateYAML_cases env v a m i ctx
    · rcases verdict_cases _ (failInfo env v (.str a) m i ctx.Negative) with h | h
      · exact Or.inl h
      · exact Or.inr (Or.inl h)

/-- A failing value whose embedded decoding succeeds carries the
expected/actual block. -/
theorem validateSingle_mismatch (env : Env) (v : StringContainsValidator) (a : String)
    (m i : Int) (ctx : ValidateContext) (hdec : decodes env v a = true)
    (hfail : (validateSingle env v a m i ctx).1 = false) :
    validateSingle env v a m i ctx = (false, failInfo env v (.str a) m i ctx.Negative) := by
  unfold decodes at hdec
  unfold validateSingle at hfail ⊢
  by_cases hj : v.FromJson = true
  · simp only [hj, if_true] at hdec hfail ⊢
    unfold validateJSON at hfail ⊢
    cases hu : env.jsonUnmarshal a with
    | error err => simp [hu, Except.toBool] at hdec
    | ok obj =>
      rcases contentToMap_cases env v with ⟨_, cm, hcm⟩ | ⟨hd, _⟩
      · rw [hu] at hfail
        simp only [hcm] at hfail ⊢
        split
        · rfl
        · rename_i hne
          rw [if_neg hne] at hfail
          cases hfail
      · simp [hu, hd, Except.toBool] at hdec
  · simp only [hj, Bool.false_eq_true, if_false] at hdec hfail ⊢
    by_cases hy : v.FromYaml = true
    · simp only [hy, if_true] at hdec hfail ⊢
      unfold validateYAML at hfail ⊢
      cases hu : env.yamlUnmarshal a with
      | error err => simp [hu, Except.toBool] at hdec
      | ok obj =>
        rcases contentToMap_cases env v with ⟨_, cm, hcm⟩ | ⟨hd, _⟩
        · rw [hu] at hfail
          simp only [hcm] at hfail ⊢
          split
          · rfl
          · rename_i hne
            rw [if_neg hne] at hfail
            cases hfail
        · simp [hu, hd, Except.toBool] at hdec
    · simp only [hy, Bool.false_eq_true, if_false] at hfail ⊢
      exact verdict_false _ _ hfail

/-- No line of an indented replacement is the label `Actual:` or begins with
`Expected`. -/
theorem indentReplacement_no_label (r line : String) (h : line ∈ indentReplacement r) :
    line ≠ "Actual:" ∧ ¬ ("Expected".data <+: line.data) := by
  obtain ⟨l, hl⟩ := indentReplacement_tab r line h
  constructor
  · apply String.ne_of_head
    rw [hl]
    show some '\t' ≠ "Actual:".data.head?
    decide
  · rintro ⟨t, ht⟩
    rw [hl] at ht
    have hE : "Expected".data = 'E' :: "xpected".data := rfl
    rw [hE] at ht
    have hhead := (List.cons.injEq _ _ _ _ ▸ ht : _ ∧ _).1
    exact absurd hhead (by decide)

/-- C16, amended: in embedded-JSON mode, for every value whose text the JSON
decoder rejects with an error, and for both values of the negation flag, the
verdict of the value is false and its diagnostics are an error block: after
the two index lines comes the line `Error:`, immediately followed by a line
that contains `failed to parse JSON from`; no line is the label `Actual:` and
no line begins with `Expected`. A text that is no JSON object and that the
decoder accepts all the same, as it accepts `null`, is not covered. -/
theorem validateSingle_json_decode_error (env : Env) (v : StringContainsValidator)
    (a : String) (m i : Nat) (ctx : ValidateContext) (err : String)
    (hj : v.FromJson = true) (herr : env.jsonUnmarshal a = .error err) :
    (validateSingle env v a m i ctx).1 = false ∧
    (∃ line rest, (validateSingle env v a m i ctx).2 =
        ["DocumentIndex:\t" ++ toString m, "ValuesIndex:\t" ++ toString i, "Error:", line]
          ++ rest ∧
        "failed to parse JSON from".data <:+: line.data) ∧
    ∀ l ∈ (validateSingle env v a m i ctx).2,
      l ≠ "Actual:" ∧ ¬ ("Expected".data <+: l.data) := by
  have hval : validateSingle env v a m i ctx =
      (false, ("DocumentIndex:\t" ++ toString m) :: ("ValuesIndex:\t" ++ toString i) ::
        "Error:" :: indentReplacement
          ("failed to parse JSON from '" ++ v.Path ++ "': " ++ err)) := by
    unfold validateSingle validateJSON
    rw [hj, herr]
    simp only [if_true]
    rw [splitInfof_error_value]
  have hdata : ("failed to parse JSON from '" ++ v.Path ++ "': " ++ err).data =
      ('f' :: ("ailed to parse JSON from ".data ++ ['\''])) ++
        (v.Path.data ++ "': ".data ++ err.data) := by
    simp only [String.data_append, List.append_assoc]
    rfl
  obtain ⟨l, rest, hind⟩ := indentReplacement_begins _ 'f' '\''
    "ailed to parse JSON from ".data _ hdata (by decide) (by decide) (by decide)
  rw [hval]
  refine ⟨rfl, ⟨_, rest, by rw [hind]; rfl, ?_⟩, ?_⟩
  · refine ⟨['\t'], ' ' :: '\'' :: l, ?_⟩
    show ['\t'] ++ "failed to parse JSON from".data ++ ' ' :: '\'' :: l = _
    simp only [List.cons_append, List.nil_append, List.append_assoc]
  · intro line hline
    simp only [List.mem_cons] at hline
    rcases hline with h | h | h | h
    · subst h
      constructor
      · apply String.ne_of_head
        rw [String.data_append]
        show some 'D' ≠ "Actual:".data.head?
        decide
      · rintro ⟨t, ht⟩
        rw [String.data_append] at ht
        have hE : "Expected".data = 'E' :: "xpected".data := rfl
        have hD : "DocumentIndex:\t".data = 'D' :: "ocumentIndex:\t".data := rfl
        rw [hE, hD] at ht
        have hhead := (List.cons.injEq _ _ _ _ ▸ ht : _ ∧ _).1
        exact absurd hhead (by decide)
    · subst h
      constructor
      · apply String.ne_of_head
        rw [String.data_append]
        show some 'V' ≠ "Actual:".data.head?
        decide
      · rintro ⟨t, ht⟩
        rw [String.data_append] at ht
        have hE : "Expected".data = 'E' :: "xpected".data := rfl
        have hV : "ValuesIndex:\t".data = 'V' :: "aluesIndex:\t".data := rfl
        rw [hE, hV] at ht
        have hhead := (List.cons.injEq _ _ _ _ ▸ ht : _ ∧ _).1
        exact absurd hhead (by decide)
    · subst h
      exact ⟨by decide, by decide⟩
    · exact indentReplacement_no_label _ line h

/-- Trimming leaves a text without cutset characters at its ends. -/
theorem trimCutset_of_trimmed (t : String) (h : trimmed t = true) :
    trimCutset t.data = t.data := by
  unfold trimmed at h
  rw [Bool.and_eq_true] at h
  obtain ⟨hhead, hlast⟩ := h
  cases hd : t.data with
  | nil => rfl
  | cons c cs =>
    rw [hd] at hhead hlast
    have hc : isCutset c = false := by simpa using hhead
    unfold trimCutset
    rw [List.dropWhile_cons, hc]
    simp only [Bool.false_eq_true, if_false]
    cases hl : (c :: cs).getLast? with
    | none => simp at hl
    | some d =>
      rw [hl] at hlast
      have hdc : isCutset d = false := by simpa using hlast
      obtain ⟨ys, hys⟩ := List.getLast?_eq_some_iff.1 hl
      rw [hys, List.reverse_append, List.reverse_singleton, List.singleton_append,
        List.dropWhile_cons, hdc]
      simp

/-- A trimmed text is laid out with one tab-indented line per line. -/
theorem indentReplacement_of_trimmed (t : String) (h : trimmed t = true) :
    indentReplacement t = (splitLines t.data).map (fun l => String.mk ('\t' :: l)) := by
  unfold indentReplacement
  rw [trimCutset_of_trimmed t h]

/-- A trimmed path without line feed continues its label on one line. -/
theorem continueLabel_path (p : String) (hnl : '\n' ∉ p.data) (h : trimmed p = true) :
    continueLabel "Path:" (indentReplacement p) = ["Path:\t" ++ p] := by
  rw [indentReplacement_of_trimmed p h, splitLines_of_not_mem _ hnl]
  simp only [List.map_cons, List.map_nil, continueLabel]
  congr 1

/-- C18, amended: for every per-value content mismatch on document index `m`,
value index `i` and path `p`, the diagnostics are, in this order: the lines
`DocumentIndex:\tm` and `ValuesIndex:\ti`, the label `Path:` continued by the
indented path, the header `Expected to contain:` without negation or
`Expected NOT to contain:` with negation, the indented expected text, the
line `Actual:` and the indented actual text, not folded. An indented text has
its line feeds, tabs and spaces at the two ends dropped and then one
tab-indented output line per line; the path line is `Path:\tp` when `p` has no
line feed and no line feed, tab or space at its ends. -/
theorem validateSingle_mismatch_layout (env : Env) (v : StringContainsValidator)
    (a : String) (m i : Nat) (ctx : ValidateContext)
    (hdec : decodes env v a = true)
    (hfail : (validateSingle env v a m i ctx).1 = false) :
    (validateSingle env v a m i ctx).2 =
      ["DocumentIndex:\t" ++ toString m, "ValuesIndex:\t" ++ toString i] ++
        continueLabel "Path:" (indentReplacement v.Path) ++
        [if ctx.Negative then "Expected NOT to contain:" else "Expected to contain:"] ++
        indentReplacement (expectedText env v) ++ ["Actual:"] ++ indentReplacement a ∧
    ('\n' ∉ v.Path.data → trimmed v.Path = true →
      continueLabel "Path:" (indentReplacement v.Path) = ["Path:\t" ++ v.Path]) ∧
    (∀ t : String, indentReplacement t =
      (splitLines (trimCutset t.data)).map (fun l => String.mk ('\t' :: l))) ∧
    (∀ t : String, trimmed t = true →
      indentReplacement t = (splitLines t.data).map (fun l => String.mk ('\t' :: l))) := by
  refine ⟨?_, continueLabel_path v.Path, fun _ => rfl, indentReplacement_of_trimmed⟩
  rw [validateSingle_mismatch env v a m i ctx hdec hfail]
  exact failInfo_value env v a m i ctx.Negative

/-- Instance of C18, amended: the content `not present` on the multi-line
text under `a.c`, with whitespace folding. -/
theorem validateSingle_mismatch_layout_witness :
    decodes sampleEnv ⟨"a.c", .str "not present", true, false, false⟩
        "multi\nline\nstring" = true ∧
    (validateSingle sampleEnv ⟨"a.c", .str "not present", true, false, false⟩
        "multi\nline\nstring" (0 : Nat) (0 : Nat) ⟨[docToTestStringContains], false, false⟩).2 =
      ["DocumentIndex:\t0", "ValuesIndex:\t0", "Path:\ta.c", "Expected to contain:",
        "\tnot present", "Actual:", "\tmulti", "\tline", "\tstring"] :=
  ⟨rfl,
    ((validateSingle_mismatch_layout sampleEnv ⟨"a.c", .str "not present", true, false, false⟩
      "multi\nline\nstring" 0 0 ⟨[docToTestStringContains], false, false⟩ rfl
      (by decide)).1).trans (by decide)⟩

/-- C18, as stated, fails: on a document whose key holds a line feed the path
made of `a.x`, a line feed and `y` resolves to a value, and the path takes two
lines of the diagnostics of the mismatch. -/
theorem validateSingle_mismatch_layout_multiline :
    sampleEnv.GetValueOfSetPath lineFeedKeyDoc "a.x\ny" = .ok [.str "hello"] ∧
    Validate sampleEnv ⟨"a.x\ny", .str "nope", false, false, false⟩
        ⟨[lineFeedKeyDoc], false, false⟩ =
      (false, ["DocumentIndex:\t0", "ValuesIndex:\t0", "Path:\ta.x", "\ty",
        "Expected to contain:", "\tnope", "Actual:", "\thello"]) ∧
    Validate sampleEnv ⟨"a.x\ny", .str "nope", false, false, false⟩
        ⟨[lineFeedKeyDoc], false, false⟩ ≠
      (false, ["DocumentIndex:\t0", "ValuesIndex:\t0", "Path:\ta.x\ny",
        "Expected to contain:", "\tnope", "Actual:", "\thello"]) :=
  ⟨rfl, by decide, by decide⟩

/-! ## A verdict is true exactly when no diagnostic is returned -/

theorem failInfo_ne_nil (env : Env) (v : StringContainsValidator) (actual : Value)
    (m i : Int) (negative : Bool) : failInfo env v actual m i negative ≠ [] := by
  unfold failInfo
  exact splitInfof_ne_nil _ _ _ _ (by simp [setFailFormat])

/-- A value passes exactly when it yields no diagnostic. -/
theorem validateSingle_true_iff (env : Env) (v : StringContainsValidator) (a : String)
    (m i : Int) (ctx : ValidateContext) :
    (validateSingle env v a m i ctx).1 = true ↔ (validateSingle env v a m i ctx).2 = [] := by
  rcases validateSingle_cases env v a m i ctx with h | h | ⟨msg, h⟩
  · rw [h]
    simp
  · rw [h]
    simp [failInfo_ne_nil]
  · rw [h]
    simp [splitInfof_ne_nil _ _ _ _ (show errorFormat ≠ [] by decide)]

/-- After the first value, the loop keeps the running verdict true exactly
when no diagnostic has been collected. -/
theorem validateValues_true_iff_succ (env : Env) (v : StringContainsValidator) (m : Nat)
    (ctx : ValidateContext) :
    ∀ (rest : List Value) (k : Nat) (s : Bool) (errs : List String), k ≠ 0 →
      (s = true ↔ errs = []) →
      ((validateValues env v m ctx k rest s errs).1 = true ↔
        (validateValues env v m ctx k rest s errs).2 = [])
  | [], _, _, _, _, h => h
  | x :: rest, k, s, errs, hk, h => by
    rw [validateValues]
    have hsingle := validateSingle_true_iff env v (actualText env x) m k ctx
    have hinv : determineSuccess k s (validateSingle env v (actualText env x) m k ctx).1 = true ↔
        errs ++ (validateSingle env v (actualText env x) m k ctx).2 = [] := by
      simp only [determineSuccess, hk, if_false, Bool.and_eq_true, List.append_eq_nil]
      rw [h, hsingle]
    split
    · exact hinv
    · exact validateValues_true_iff_succ env v m ctx rest (k + 1) _ _ (Nat.succ_ne_zero k) hinv

/-- A document passes exactly when it yields no diagnostic. -/
theorem validateManifest_true_iff (env : Env) (v : StringContainsValidator)
    (d : K8sManifest) (m : Nat) (ctx : ValidateContext) :
    (validateManifest env v d m ctx).1 = true ↔ (validateManifest env v d m ctx).2 = [] := by
  unfold validateManifest
  cases env.GetValueOfSetPath d v.Path with
  | error err =>
    simp [splitInfof_ne_nil _ _ _ _ (show errorFormat ≠ [] by decide)]
  | ok actual =>
    cases actual with
    | nil =>
      cases ctx.Negative
      · simp [splitInfof_ne_nil _ _ _ _ (show errorFormat ≠ [] by decide)]
      · simp [validateValues]
    | cons x rest =>
      simp only [List.length_cons, Nat.succ_ne_zero, decide_False, Bool.false_and,
        Bool.false_eq_true, if_false]
      rw [validateValues]
      have hsingle := validateSingle_true_iff env v (actualText env x) m (0 : Nat) ctx
      have hinv : determineSuccess 0 false
          (validateSingle env v (actualText env x) m (0 : Nat) ctx).1 = true ↔
          [] ++ (validateSingle env v (actualText env x) m (0 : Nat) ctx).2 = [] := by
        simp only [determineSuccess, if_true, List.nil_append]
        exact hsingle
      split
      · exact hinv
      · exact validateValues_true_iff_succ env v m ctx rest (0 + 1) _ _ (Nat.succ_ne_zero 0) hinv

/-- After the first document, the loop keeps the running verdict true
exactly when no diagnostic has been collected. -/
theorem validateDocs_true_iff_succ (env : Env) (v : StringContainsValidator)
    (ctx : ValidateContext) :
    ∀ (rest : List K8sManifest) (k : Nat) (s : Bool) (errs : List String), k ≠ 0 →
      (s = true ↔ errs = []) →
      ((validateDocs env v ctx k rest s errs).1 = true ↔
        (validateDocs env v ctx k rest s errs).2 = [])
  | [], _, _, _, _, h => h
  | d :: rest, k, s, errs, hk, h => by
    rw [validateDocs]
    have hdoc := validateManifest_true_iff env v d k ctx
    have hinv : determineSuccess k s (validateManifest env v d k ctx).1 = true ↔
        errs ++ (validateManifest env v d k ctx).2 = [] := by
      simp only [determineSuccess, hk, if_false, Bool.and_eq_true, List.append_eq_nil]
      rw [h, hdoc]
    split
    · exact hinv
    · exact validateDocs_true_iff_succ env v ctx rest (k + 1) _ _ (Nat.succ_ne_zero k) hinv

/-- C20: for every configuration, negation flag, fail-fast flag and document
list, empty or not, `Validate` returns true if and only if the diagnostic
sequence it returns is empty. -/
theorem Validate_true_iff_no_diagnostics (env : Env) (v : StringContainsValidator)
    (ctx : ValidateContext) :
    (Validate env v ctx).1 = true ↔ (Validate env v ctx).2 = [] := by
  unfold Validate ValidateContext.getManifests
  cases hd : ctx.Docs with
  | nil =>
    cases ctx.Negative
    · simp [validateDocs, failInfo_ne_nil]
    · simp [validateDocs]
  | cons d rest =>
    simp only [List.length_cons, Nat.succ_ne_zero, decide_False, Bool.false_and,
      Bool.false_eq_true, if_false]
    rw [validateDocs]
    have hdoc := validateManifest_true_iff env v d 0 ctx
    have hinv : determineSuccess 0 false (validateManifest env v d 0 ctx).1 = true ↔
        [] ++ (validateManifest env v d 0 ctx).2 = [] := by
      simp only [determineSuccess, if_true, List.nil_append]
      exact hdoc
    split
    · exact hinv
    · exact validateDocs_true_iff_succ env v ctx rest (0 + 1) _ _ (Nat.succ_ne_zero 0) hinv

/-! ## The reporter -/

/-- The loop of `print` emits the lines of `FailInfo` in order, each at
indent level 3. -/
theorem printFailInfo_eq : ∀ (lines : List String) (out : Output),
    printFailInfo lines out = out ++ lines.map (fun l => (l, 3))
  | [], out => by simp [printFailInfo]
  | l :: rest, out => by
    rw [printFailInfo, printFailInfo_eq rest, Println]
    simp

/-- C19: for every assertion result `r`, `print` emits nothing when
`r.Passed` is true, and otherwise emits exactly: the title, styled by
`Danger`, at indent level 2, where the title is `r.CustomInfo` when that is
not empty and otherwise `- asserts[<Index>]` followed by ` NOT` when `r.Not`
and by the kind of the assertion between backquotes and ` fail`; then every
line of `r.FailInfo`, in order, at indent level 3; then one empty line. -/
theorem print_emits (r : AssertionResult) (printer : Printer) (verbosity : Int)
    (out : Output) :
    r.print printer verbosity out =
      if r.Passed then out
      else
        out ++
          [(printer.Danger "%s"
              [if r.CustomInfo ≠ "" then r.CustomInfo
               else "- asserts[" ++ toString r.Index ++ "]" ++ (if r.Not then " NOT" else "")
                 ++ " `" ++ r.AssertType ++ "` fail"], 2)] ++
          r.FailInfo.map (fun l => (l, 3)) ++ [("", 0)] := by
  unfold AssertionResult.print AssertionResult.getTitle
  cases r.Passed
  · simp only [Bool.false_eq_true, if_false]
    rw [printFailInfo_eq]
    simp [Println]
  · rfl

/-- Instance of C19: a failing negated assertion of kind `contains` with two
lines of diagnostics, and the same assertion passing. -/
theorem print_emits_sample :
    (AssertionResult.mk 3 ["Path:\ta.b", "Actual:"] false false "" "contains" true "").print
        ⟨fun _ args => String.join args⟩ 0 [] =
      [("- asserts[3] NOT `contains` fail", 2), ("Path:\ta.b", 3), ("Actual:", 3), ("", 0)] ∧
    (AssertionResult.mk 3 ["Path:\ta.b", "Actual:"] true false "" "contains" true "").print
        ⟨fun _ args => String.join args⟩ 0 [] = [] := by
  constructor
  · rw [print_emits]
    decide
  · rw [print_emits]
    rfl

/-! ## Numbers in embedded JSON -/

/-- A `float64` is not deep-equal to an `int` of the same value. -/
theorem deepEqual_float_int (q : ℚ) (n : Int) :
    deepEqual (.float (.fin q)) (.int n) = false := by
  simp [deepEqual]

/-- C17, failing input: in embedded-JSON mode without negation, the document
whose entry `a.n` holds the JSON text of the object with the member `a` equal
to 1, and a validator whose content is that same text: the actual text
decodes with the number as a `float64`, the content decodes through YAML with
the number as an `int`, and `Validate` fails with an expected/actual block that
shows the same text twice. -/
theorem Validate_number_text_fails :
    numberEnv.GetValueOfSetPath numberDoc numberValidator.Path = .ok [.str numberText] ∧
    numberEnv.jsonUnmarshal numberText = .ok [("a", .float (.fin 1))] ∧
    numberEnv.yamlUnmarshal numberText = .ok [("a", .int 1)] ∧
    Validate numberEnv numberValidator ⟨[numberDoc], false, false⟩ =
      (false, ["DocumentIndex:\t0", "ValuesIndex:\t0", "Path:\ta.n", "Expected to contain:",
        "\t\x7b\"a\":1\x7d", "Actual:", "\t\x7b\"a\":1\x7d"]) :=
  ⟨rfl, rfl, rfl, by decide⟩

/-! ## Further instances on the test document -/

/-- Instance of C11: the sentence under `a.b` as content, with whitespace
folding. -/
theorem Validate_own_text_witness :
    sampleEnv.GetValueOfSetPath docToTestStringContains "a.b"
        = .ok [.str "hello world foo bar"] ∧
    Validate sampleEnv ⟨"a.b", .str "hello world foo bar", true, false, false⟩
        ⟨[docToTestStringContains], false, false⟩ = (true, []) :=
  ⟨rfl,
    Validate_own_text sampleEnv ⟨"a.b", .str "hello world foo bar", true, false, false⟩
      docToTestStringContains (.str "hello world foo bar") false rfl rfl rfl (Or.inl rfl)⟩

/-- Instance of C12: the decoded object under `a.d`, its nested mapping and
the nested mapping emptied. -/
theorem containsMap_trans_witness :
    containsMap [("name", .str "test"), ("nested", .map [("value", .bool true)])]
        [("nested", .map [("value", .bool true)])] = true ∧
    containsMap [("nested", .map [("value", .bool true)])] [("nested", .map [])] = true ∧
    containsMap [("name", .str "test"), ("nested", .map [("value", .bool true)])]
        [("nested", .map [])] = true :=
  ⟨by decide, by decide,
    containsMap_trans [("name", .str "test"), ("nested", .map [("value", .bool true)])]
      [("nested", .map [("value", .bool true)])] [("nested", .map [])]
      (by decide) (by decide)⟩

/-- Instance of C13, amended: the decoded object under `a.d`. -/
theorem containsMap_self_witness :
    distinctKeys (.map [("name", .str "test"), ("nested", .map [("value", .bool true)])])
        = true ∧
    noNaN (.map [("name", .str "test"), ("nested", .map [("value", .bool true)])]) = true ∧
    containsMap [("name", .str "test"), ("nested", .map [("value", .bool true)])]
        [("name", .str "test"), ("nested", .map [("value", .bool true)])] = true :=
  ⟨by decide, by decide,
    containsMap_self [("name", .str "test"), ("nested", .map [("value", .bool true)])]
      (by decide) (by decide)⟩

/-- Instance of C14: the content of the embedded-JSON test does not mention
the key `nested`. -/
theorem containsMap_setKey_witness :
    "nested" ∉ List.map Prod.fst [("name", Value.str "test")] ∧
    containsMap (setKey [("name", .str "test")] "nested" (.map [("value", .bool true)]))
        [("name", .str "test")] =
      containsMap [("name", .str "test")] [("name", .str "test")] :=
  ⟨by decide,
    containsMap_setKey [("name", .str "test")] [("name", .str "test")] "nested"
      (.map [("value", .bool true)]) (by decide)⟩

/-- Instance of C15: the multi-line text under `a.c`. -/
theorem normalizeWhitespace_idem_witness :
    normalizeWhitespace (normalizeWhitespace "multi\nline\nstring")
      = normalizeWhitespace "multi\nline\nstring" :=
  (normalizeWhitespace_idem "multi\nline\nstring").1

/-- Instance of C16, amended: the invalid-JSON test, with negation. -/
theorem validateSingle_json_decode_error_witness :
    sampleEnv.jsonUnmarshal "hello world foo bar" =
        .error "invalid character 'h' looking for beginning of value" ∧
    (validateSingle sampleEnv invalidJsonValidator "hello world foo bar" (0 : Nat) (0 : Nat)
        ⟨[docToTestStringContains], true, false⟩).1 = false ∧
    ∀ l ∈ (validateSingle sampleEnv invalidJsonValidator "hello world foo bar" (0 : Nat)
        (0 : Nat) ⟨[docToTestStringContains], true, false⟩).2,
      l ≠ "Actual:" ∧ ¬ ("Expected".data <+: l.data) :=
  ⟨rfl,
    (validateSingle_json_decode_error sampleEnv invalidJsonValidator "hello world foo bar"
      0 0 ⟨[docToTestStringContains], true, false⟩ _ rfl rfl).1,
    (validateSingle_json_decode_error sampleEnv invalidJsonValidator "hello world foo bar"
      0 0 ⟨[docToTestStringContains], true, false⟩ _ rfl rfl).2.2⟩

/-- Instance of C20: the fail-fast test fails and carries diagnostics. -/
theorem Validate_true_iff_no_diagnostics_witness :
    (Validate sampleEnv helloWorldValidator
        ⟨[extraDoc, docToTestStringContains], false, true⟩).1 = true ↔
      (Validate sampleEnv helloWorldValidator
        ⟨[extraDoc, docToTestStringContains], false, true⟩).2 = [] :=
  Validate_true_iff_no_diagnostics sampleEnv helloWorldValidator
    ⟨[extraDoc, docToTestStringContains], false, true⟩

/-! ## Whitespace folding keeps a match -/

/-- The folding of a text in two parts: the second part is folded in the
state that the first part leaves. -/
theorem collapseSpace_append : ∀ (x y : List Char) (inRun : Bool),
    collapseSpace inRun (x ++ y) =
      collapseSpace inRun x ++ collapseSpace (runOpenAfter inRun x) y
  | [], _, _ => rfl
  | c :: cs, y, inRun => by
    by_cases hc : isSpace c = true
    · cases inRun
      · simp only [List.cons_append, collapseSpace, runOpenAfter, hc, if_true,
          Bool.false_eq_true, if_false]
        exact congrArg (List.cons ' ') (collapseSpace_append cs y true)
      · simp only [List.cons_append, collapseSpace, runOpenAfter, hc, if_true]
        exact collapseSpace_append cs y true
    · have hc' : isSpace c = false := by simpa using hc
      simp only [List.cons_append, collapseSpace, runOpenAfter, hc', Bool.false_eq_true,
        if_false]
      exact congrArg (List.cons c) (collapseSpace_append cs y false)

/-- A text folded with a run open is the text folded from scratch, less the
leading space if there is one. -/
theorem collapseSpace_true_or (c : List Char) :
    collapseSpace true c = collapseSpace false c ∨
      collapseSpace false c = ' ' :: collapseSpace true c := by
  cases c with
  | nil => exact Or.inl rfl
  | cons d cs =>
    by_cases hd : isSpace d = true
    · right
      simp only [collapseSpace, hd, if_true, Bool.false_eq_true, if_false]
    · left
      have hd' : isSpace d = false := by simpa using hd
      simp only [collapseSpace, hd', Bool.false_eq_true, if_false]

/-- When a text leaves a run open, its folding ends in a space, unless the
run was open from the start and nothing was emitted. -/
theorem collapseSpace_ends_in_space : ∀ (p : List Char) (inRun : Bool),
    runOpenAfter inRun p = true →
      (∃ q, collapseSpace inRun p = q ++ [' ']) ∨ (inRun = true ∧ collapseSpace inRun p = [])
  | [], inRun, h => Or.inr ⟨h, rfl⟩
  | c :: cs, inRun, h => by
    rw [runOpenAfter] at h
    by_cases hc : isSpace c = true
    · rw [hc] at h
      rcases collapseSpace_ends_in_space cs true h with ⟨q, hq⟩ | ⟨_, hnil⟩
      · cases inRun
        · left
          refine ⟨' ' :: q, ?_⟩
          simp only [collapseSpace, hc, if_true, Bool.false_eq_true, if_false, hq,
            List.cons_append]
        · left
          refine ⟨q, ?_⟩
          simp only [collapseSpace, hc, if_true, hq]
      · cases inRun
        · left
          refine ⟨[], ?_⟩
          simp only [collapseSpace, hc, if_true, Bool.false_eq_true, if_false, hnil,
            List.nil_append]
        · right
          refine ⟨rfl, ?_⟩
          simp only [collapseSpace, hc, if_true, hnil]
    · have hc' : isSpace c = false := by simpa using hc
      rw [hc'] at h
      rcases collapseSpace_ends_in_space cs false h with ⟨q, hq⟩ | ⟨hfalse, _⟩
      · left
        refine ⟨c :: q, ?_⟩
        simp only [collapseSpace, hc', Bool.false_eq_true, if_false, hq, List.cons_append]
      · exact absurd hfalse (by simp)

/-- The folding of a part of a text occurs in the folding of the text. -/
theorem collapseSpace_infix (c a : List Char) (h : c <:+: a) :
    collapseSpace false c <:+: collapseSpace false a := by
  obtain ⟨p, s, rfl⟩ := h
  rw [List.append_assoc, collapseSpace_append p (c ++ s) false,
    collapseSpace_append c s (runOpenAfter false p)]
  cases hp : runOpenAfter false p with
  | false =>
    exact ⟨collapseSpace false p, collapseSpace (runOpenAfter false c) s,
      List.append_assoc _ _ _⟩
  | true =>
    rcases collapseSpace_true_or c with heq | hcons
    · rw [heq]
      exact ⟨collapseSpace false p, collapseSpace (runOpenAfter true c) s,
        List.append_assoc _ _ _⟩
    · rcases collapseSpace_ends_in_space p false hp with ⟨q, hq⟩ | ⟨hfalse, _⟩
      · rw [hq, hcons]
        exact ⟨q, collapseSpace (runOpenAfter true c) s, by simp⟩
      · exact absurd hfalse (by simp)

/-- C21: for all strings `a` and `c`, if `c` is a substring of `a` then
`normalizeWhitespace(c)` is a substring of `normalizeWhitespace(a)`; hence in
plain mode with negation off, for every content, every value that passes
`validateSingle` with `IgnoreFormatting` false also passes with
`IgnoreFormatting` true. -/
theorem normalizeWhitespace_keeps_match :
    (∀ a c : String, c.data <:+: a.data →
      (normalizeWhitespace c).data <:+: (normalizeWhitespace a).data) ∧
    ∀ (env : Env) (path : String) (content : Value) (a : String) (m i : Int)
      (ctx : ValidateContext), ctx.Negative = false →
      (validateSingle env ⟨path, content, false, false, false⟩ a m i ctx).1 = true →
      (validateSingle env ⟨path, content, true, false, false⟩ a m i ctx).1 = true := by
  have hfold : ∀ a c : String, c.data <:+: a.data →
      (normalizeWhitespace c).data <:+: (normalizeWhitespace a).data := by
    intro a c h
    unfold normalizeWhitespace
    exact collapseSpace_infix c.data a.data h
  refine ⟨hfold, ?_⟩
  intro env path content a m i ctx hneg hpass
  unfold validateSingle stringsContains at hpass ⊢
  simp only [Bool.false_eq_true, if_false, if_true, hneg, apply_ite Prod.fst] at hpass ⊢
  by_cases hin : (match content with
      | .str str => str
      | other => env.TrustedMarshalYAML other).data <:+: a.data
  · have hfolded := hfold a _ hin
    simp [hfolded]
  · simp [hin] at hpass

/-- Instance of C21: the words `line string` of the text under `a.c`, which
holds them on two lines. -/
theorem normalizeWhitespace_keeps_match_witness :
    "line\nstring".data <:+: "multi\nline\nstring".data ∧
    (normalizeWhitespace "line\nstring").data <:+:
      (normalizeWhitespace "multi\nline\nstring").data ∧
    (validateSingle sampleEnv ⟨"a.c", .str "line\nstring", false, false, false⟩
      "multi\nline\nstring" 0 0 ⟨[docToTestStringContains], false, false⟩).1 = true ∧
    (validateSingle sampleEnv ⟨"a.c", .str "line\nstring", true, false, false⟩
      "multi\nline\nstring" 0 0 ⟨[docToTestStringContains], false, false⟩).1 = true :=
  ⟨by decide,
    normalizeWhitespace_keeps_match.1 "multi\nline\nstring" "line\nstring" (by decide),
    by decide,
    normalizeWhitespace_keeps_match.2 sampleEnv "a.c" (.str "line\nstring")
      "multi\nline\nstring" 0 0 ⟨[docToTestStringContains], false, false⟩ rfl (by decide)⟩

/-! ## The text `null` is accepted by the JSON decoder -/

/-- C16, as stated, fails: the null value under `a.z` is handed over as the
text `null` on a line, which is no JSON object and which the JSON decoder
accepts, leaving the map without entries. The value is then judged by
containment: without negation it fails with an expected/actual block and no
`Error:` line, with negation it passes without diagnostics. -/
theorem validateSingle_json_null_accepted :
    nullEnv.GetValueOfSetPath nullDoc nullValidator.Path = .ok [.null] ∧
    actualText nullEnv .null = "null\n" ∧
    nullEnv.jsonUnmarshal "null\n" = .ok [] ∧
    validateSingle nullEnv nullValidator "null\n" 0 0 ⟨[nullDoc], false, false⟩ =
      (false, ["DocumentIndex:\t0", "ValuesIndex:\t0", "Path:\ta.z", "Expected to contain:",
        "\tkey: value", "Actual:", "\tnull"]) ∧
    validateSingle nullEnv nullValidator "null\n" 0 0 ⟨[nullDoc], true, false⟩ = (true, []) ∧
    Validate nullEnv nullValidator ⟨[nullDoc], false, false⟩ =
      (false, ["DocumentIndex:\t0", "ValuesIndex:\t0", "Path:\ta.z", "Expected to contain:",
        "\tkey: value", "Actual:", "\tnull"]) ∧
    Validate nullEnv nullValidator ⟨[nullDoc], true, false⟩ = (true, []) :=
  ⟨rfl, rfl, rfl, by decide, by decide, by decide, by decide⟩

end HelmUnittest
